import Mathlib

/-!
# A verification model of the RKR-GST implementation (`src/lib.rs`)

This file gives a shallow embedding, in Lean, of the Running Karp-Rabin
Greedy-String-Tiling implementation consisting of `RkrGst::scan_pattern`,
`RkrGst::mark_strings` and the public driver `run`, together with the
rolling Adler-32 checksum it uses (the `adler32` crate's `RollingAdler32`
with `new`, `update`, `remove`, `hash`).

Byte sequences (`&[u8]`) are modelled as `List Nat` (bytes are values
`< 256`), the two mark bitvectors as `List Bool`, and `usize` arithmetic as
`Nat` arithmetic.  Every place where the Rust code can panic (an index out
of bounds, or the `i + search_length - 1` subtraction under-flowing) is
modelled by an `Option`: `none` means the Rust code panics.  Loops are
modelled by recursion; the two outer window walks and the driver loop take
an explicit fuel parameter (the walks are run with fuel `length + 1`,
which is proved sufficient whenever the search length is positive).
-/

namespace RkrGst

/-- The modulus of the Adler-32 checksum (`BASE` in the `adler32` crate). -/
def BASE : Nat := 65521

/-- State of the `adler32` crate's `RollingAdler32`: the two 16-bit sums. -/
structure Adler where
  a : Nat
  b : Nat
deriving Repr, DecidableEq

/-- `RollingAdler32::new()`: the checksum of the empty string, `a = 1, b = 0`. -/
def Adler.new : Adler := ⟨1, 0⟩

/-- `RollingAdler32::update(byte)`: append one byte to the window. -/
def Adler.update (h : Adler) (byte : Nat) : Adler :=
  let a := (h.a + byte) % BASE
  ⟨a, (h.b + a) % BASE⟩

/-- `RollingAdler32::remove(size, byte)`: remove the byte that entered the
window `size` steps ago; `a` loses `byte` and `b` loses `size * byte + 1`,
both modulo `BASE`. -/
def Adler.remove (h : Adler) (size byte : Nat) : Adler :=
  ⟨(h.a + BASE - byte) % BASE,
   (h.b + (BASE - 1) + (BASE - size % BASE) * byte) % BASE⟩

/-- `RollingAdler32::hash()`: `(b << 16) | a`. -/
def Adler.hash (h : Adler) : Nat := h.b * 65536 + h.a

/-- `let mut hash = RollingAdler32::new(); for j in i..(i+s) { hash.update(l[j]) }`. -/
def hashRange (l : List Nat) (i s : Nat) : Adler :=
  (List.range s).foldl (fun h j => h.update (l.getD (i + j) 0)) Adler.new

/-- One accepted or candidate tile, the Rust `Match` struct. -/
structure Match where
  pattern_index : Nat
  text_index : Nat
  length : Nat
deriving Repr, DecidableEq

/-- The `HashMap<u32, Vec<usize>>` of `scan_pattern`, as an association
list; each key maps to its offsets in insertion order. -/
abbrev HMap := List (Nat × List Nat)

/-- `map.entry(k).or_insert_with(Vec::new).push(v)`. -/
def mapInsert (m : HMap) (k v : Nat) : HMap :=
  match m with
  | [] => [(k, [v])]
  | (k', vs) :: rest =>
      if k' = k then (k, vs ++ [v]) :: rest else (k', vs) :: mapInsert rest k v

/-- `map.contains_key(&k)` / `map[&k]` combined: the interpretation of the
association list. -/
def mapFind (m : HMap) (k : Nat) : Option (List Nat) :=
  match m with
  | [] => none
  | (k', vs) :: rest => if k' = k then some vs else mapFind rest k

/-- The offsets stored under key `k` (empty when the key is absent). -/
def mapOffsets (m : HMap) (k : Nat) : List Nat := (mapFind m k).getD []

/-- The `for j in i..(i + search_length)` jump loop of both walks: scan the
positions `i, i+1, ...` (for `s` steps) for the first marked one.  Returns
`none` on an out-of-bounds bitmap read (a panic), `some none` when no mark
was found, and `some (some j)` for the first marked position `j`. -/
def firstMarked (mark : List Bool) (i : Nat) : Nat → Option (Option Nat)
  | 0 => some none
  | n + 1 =>
      match mark.get? i with
      | none => none
      | some true => some (some i)
      | some false => firstMarked mark (i + 1) n

/-- The inner `loop` of the text walk of `scan_pattern`: record window
starts into the map, sliding the rolling hash, until the window's last
position is marked or the window leaves the text.  Returns the position at
which the loop stopped together with the extended map.  The structural
fuel argument only bounds the number of iterations; it is instantiated
with `text.length + 1`, which is proved sufficient. -/
def buildInner (text : List Nat) (tmark : List Bool) (s : Nat) :
    Nat → Nat → Adler → HMap → Option (Nat × HMap)
  | 0, _, _, _ => none
  | fuel + 1, i, h, m =>
      if i + s = 0 then none
      else
        match tmark.get? (i + s - 1) with
        | none => none
        | some true => some (i, m)
        | some false =>
            let m' := mapInsert m h.hash i
            if text.length < i + 1 + s then some (i + 1, m')
            else
              buildInner text tmark s fuel (i + 1)
                ((h.remove s (text.getD i 0)).update (text.getD (i + s) 0)) m'

/-- The outer `while (i + search_length) <= self.text.len()` loop of the
text walk of `scan_pattern` (the hash-index builder), with explicit fuel. -/
def buildOuter (text : List Nat) (tmark : List Bool) (s : Nat) :
    Nat → Nat → HMap → Option HMap
  | 0, _, _ => none
  | fuel + 1, i, m =>
      if text.length < i + s then some m
      else
        match firstMarked tmark i s with
        | none => none
        | some jo =>
            let i1 := match jo with | some j => j + 1 | none => i
            if text.length < i1 + s then some m
            else
              match buildInner text tmark s (text.length + 1) i1 (hashRange text i1 s) m with
              | none => none
              | some (i2, m2) => buildOuter text tmark s fuel i2 m2

/-- The whole first half of `scan_pattern`: build the hash → offsets map
over the text. -/
def buildMap (text : List Nat) (tmark : List Bool) (s : Nat) : Option HMap :=
  buildOuter text tmark s (text.length + 1) 0 []

/-- The verify-and-extend `while` loop of `scan_pattern`: starting from
offset `k`, count how far text (from `tI`) and pattern (from `pI`) agree
byte-for-byte with both sides unmarked, stopping at a sequence end, a
mismatch or a mark.  `none` models the panic of a mark read out of bounds.
The fuel is instantiated with `text.length + 1`, which is sufficient. -/
def extendLen (pattern text : List Nat) (pmark tmark : List Bool)
    (pI tI : Nat) : Nat → Nat → Option Nat
  | 0, _ => none
  | fuel + 1, k =>
      if tI + k < text.length ∧ pI + k < pattern.length ∧
          text.getD (tI + k) 0 = pattern.getD (pI + k) 0 then
        match tmark.get? (tI + k) with
        | none => none
        | some true => some k
        | some false =>
            match pmark.get? (pI + k) with
            | none => none
            | some true => some k
            | some false => extendLen pattern text pmark tmark pI tI fuel (k + 1)
      else some k

/-- Result of probing one hash bucket / of the inner pattern-walk loop:
a panic, an early `return k` (with the candidates pushed so far), or
normal continuation. -/
inductive ProbeRes where
  | fail
  | early (k : Nat) (acc : List Match)
  | done (acc : List Match) (mx : Nat)
deriving Repr, DecidableEq

/-- The `for text_index in &map[&hash.hash()]` loop of `scan_pattern`:
verify and extend each stored text offset against the pattern window at
`pI`; `return k` when `k > 2 * s`, record a candidate when `k >= s`. -/
def probeList (pattern text : List Nat) (pmark tmark : List Bool) (s pI : Nat) :
    List Nat → List Match → Nat → ProbeRes
  | [], acc, mx => .done acc mx
  | tI :: rest, acc, mx =>
      match extendLen pattern text pmark tmark pI tI (text.length + 1) 0 with
      | none => .fail
      | some k =>
          if 2 * s < k then .early k acc
          else if s ≤ k then
            probeList pattern text pmark tmark s pI rest
              (acc ++ [⟨pI, tI, k⟩]) (max mx k)
          else probeList pattern text pmark tmark s pI rest acc mx

/-- Result of the inner pattern-walk loop: a panic, an early `return`, or
a break back to the outer loop at position `i`. -/
inductive InnerRes where
  | fail
  | early (k : Nat) (acc : List Match)
  | cont (i : Nat) (acc : List Match) (mx : Nat)
deriving Repr, DecidableEq

/-- The inner `loop` of the pattern walk of `scan_pattern`: at each window
whose last position is unmarked, probe the map under the rolling hash,
then slide the window by one.  The fuel is instantiated with
`pattern.length + 1`, which is proved sufficient. -/
def scanInner (pattern text : List Nat) (pmark tmark : List Bool)
    (s : Nat) (m : HMap) :
    Nat → Nat → Adler → List Match → Nat → InnerRes
  | 0, _, _, _, _ => .fail
  | fuel + 1, i, h, acc, mx =>
      if i + s = 0 then .fail
      else
        match pmark.get? (i + s - 1) with
        | none => .fail
        | some true => .cont i acc mx
        | some false =>
            match (match mapFind m h.hash with
              | none => ProbeRes.done acc mx
              | some ts => probeList pattern text pmark tmark s i ts acc mx) with
            | .fail => .fail
            | .early k acc' => .early k acc'
            | .done acc' mx' =>
                if pattern.length < i + 1 + s then .cont (i + 1) acc' mx'
                else
                  scanInner pattern text pmark tmark s m fuel (i + 1)
                    ((h.remove s (pattern.getD i 0)).update (pattern.getD (i + s) 0))
                    acc' mx'

/-- The outer `while (i + search_length) <= self.pattern.len()` loop of
the pattern walk of `scan_pattern`, with explicit fuel. -/
def scanOuter (pattern text : List Nat) (pmark tmark : List Bool)
    (s : Nat) (m : HMap) :
    Nat → Nat → List Match → Nat → InnerRes
  | 0, _, _, _ => .fail
  | fuel + 1, i, acc, mx =>
      if pattern.length < i + s then .cont i acc mx
      else
        match firstMarked pmark i s with
        | none => .fail
        | some jo =>
            let i1 := match jo with | some j => j + 1 | none => i
            if pattern.length < i1 + s then .cont i1 acc mx
            else
              match scanInner pattern text pmark tmark s m (pattern.length + 1) i1
                  (hashRange pattern i1 s) acc mx with
              | .fail => .fail
              | .early k acc' => .early k acc'
              | .cont i2 acc' mx' =>
                  scanOuter pattern text pmark tmark s m fuel i2 acc' mx'

/-- The mutable state of the `RkrGst` struct: the two mark bitmaps, the
candidate list of the current pass and the accumulated result. -/
structure St where
  pmark : List Bool
  tmark : List Bool
  matchList : List Match
  result : List Match
deriving Repr, DecidableEq

/-- `RkrGst::scan_pattern`: build the hash index over the text, clear the
candidate list, walk the pattern probing the index, and return the new
state together with the returned `usize` (the early-exit extension length,
or the maximal candidate length of the pass). -/
def scanPattern (pattern text : List Nat) (st : St) (s : Nat) :
    Option (St × Nat) :=
  match buildMap text st.tmark s with
  | none => none
  | some m =>
      match scanOuter pattern text st.pmark st.tmark s m
          (pattern.length + 1) 0 [] 0 with
      | .fail => none
      | .early k acc => some ({ st with matchList := acc }, k)
      | .cont _ acc mx => some ({ st with matchList := acc }, mx)

/-- The `for i in 0..m.length` acceptance check of `mark_strings`: read the
two bitmaps across the candidate's spans; `some true` means fully unmarked,
`some false` means some position is already marked, `none` is a panic.
The fuel is instantiated with `m.length + 1`, which is sufficient. -/
def checkSpan (pmark tmark : List Bool) (m : Match) : Nat → Nat → Option Bool
  | 0, _ => none
  | fuel + 1, k =>
      if m.length ≤ k then some true
      else
        match tmark.get? (m.text_index + k) with
        | none => none
        | some true => some false
        | some false =>
            match pmark.get? (m.pattern_index + k) with
            | none => none
            | some true => some false
            | some false => checkSpan pmark tmark m fuel (k + 1)

/-- Set `len` consecutive bitmap positions starting at `start` to `true`
(the `for i in 0..m.length { mark.set(idx + i, true) }` loop). -/
def setRange (mark : List Bool) (start len : Nat) : List Bool :=
  (List.range len).foldl (fun mk j => mk.set (start + j) true) mark

/-- The `for m in &self.matches` loop of `mark_strings` over the sorted
candidates: accept a candidate iff its spans are fully unmarked, appending
it to the result and marking its spans. -/
def markGo : List Match → List Bool → List Bool → List Match →
    Option (List Bool × List Bool × List Match)
  | [], pmark, tmark, result => some (pmark, tmark, result)
  | m :: rest, pmark, tmark, result =>
      match checkSpan pmark tmark m (m.length + 1) 0 with
      | none => none
      | some false => markGo rest pmark tmark result
      | some true =>
          markGo rest (setRange pmark m.pattern_index m.length)
            (setRange tmark m.text_index m.length) (result ++ [m])

/-- `RkrGst::mark_strings`: stable-sort the candidates by length
descending (Rust's `sort_by` is a stable sort; a stable insertion sort by
the same comparator produces the identical ordering), greedily accept the
non-overlapping ones, clear the candidate list. -/
def markStrings (st : St) : Option St :=
  match markGo (st.matchList.insertionSort (fun a b => b.length ≤ a.length))
      st.pmark st.tmark st.result with
  | none => none
  | some (pmark', tmark', result') =>
      some { pmark := pmark', tmark := tmark', matchList := [], result := result' }

/-- Outcome of the driver loop: a panic, fuel exhaustion, or the returned
result list. -/
inductive RunRes where
  | fail
  | fuelOut
  | ok (r : List Match)
deriving Repr, DecidableEq

/-- The `loop` of `run`: scan, then either grow the search length
(`lmax > 2 * s`), or tile and shrink it (halving, clamping at
`minimum_match_length`, or stopping). -/
def driver (pattern text : List Nat) (minL : Nat) :
    Nat → Nat → St → RunRes
  | 0, _, _ => .fuelOut
  | fuel + 1, s, st =>
      match scanPattern pattern text st s with
      | none => .fail
      | some (st1, lmax) =>
          if 2 * s < lmax then driver pattern text minL fuel lmax st1
          else
            match markStrings st1 with
            | none => .fail
            | some st2 =>
                if 2 * minL < s then driver pattern text minL fuel (s / 2) st2
                else if minL < s then driver pattern text minL fuel minL st2
                else .ok st2.result

/-- The freshly initialised `RkrGst` state of `run`: all-false bitmaps
sized to the two sequences, no candidates, no results. -/
def initSt (pattern text : List Nat) : St :=
  { pmark := List.replicate pattern.length false
    tmark := List.replicate text.length false
    matchList := []
    result := [] }

/-- A generous driver fuel for the executable entry point. -/
def runFuel (text : List Nat) (s0 minL : Nat) : Nat :=
  (text.length + 2) * (s0 + text.length + minL + 8) + 8

/-- The public entry point `run`: iterate the driver from the initial
state; a panic or fuel exhaustion yields the empty list. -/
def run (pattern text : List Nat) (s0 minL : Nat) : List Match :=
  match driver pattern text minL (runFuel text s0 minL) s0 (initSt pattern text) with
  | .ok r => r
  | _ => []

/-! ## Specification predicates -/

/-- The property every candidate recorded during a scan at search length
`s` enjoys: its length is a successful extension at its offsets, at least
`s` and at most `2 * s`. -/
def CandProp (pattern text : List Nat) (pmark tmark : List Bool)
    (s : Nat) (m : Match) : Prop :=
  extendLen pattern text pmark tmark m.pattern_index m.text_index
    (text.length + 1) 0 = some m.length ∧ s ≤ m.length ∧ m.length ≤ 2 * s

/-- Two matches occupy disjoint pattern intervals and disjoint text
intervals. -/
def SpanDisjoint (a b : Match) : Prop :=
  (a.pattern_index + a.length ≤ b.pattern_index ∨
    b.pattern_index + b.length ≤ a.pattern_index) ∧
  (a.text_index + a.length ≤ b.text_index ∨
    b.text_index + b.length ≤ a.text_index)

/-- Both spans of a match lie inside the sequences, the spanned bytes are
equal position by position, and the length is at least `L`. -/
def MatchOK (pattern text : List Nat) (L : Nat) (m : Match) : Prop :=
  m.pattern_index + m.length ≤ pattern.length ∧
  m.text_index + m.length ≤ text.length ∧
  L ≤ m.length ∧
  ∀ j < m.length,
    pattern.getD (m.pattern_index + j) 0 = text.getD (m.text_index + j) 0

/-- Both spans of a match are fully marked in the given bitmaps. -/
def SpanMarked (pmark tmark : List Bool) (m : Match) : Prop :=
  (∀ j < m.length, pmark.get? (m.pattern_index + j) = some true) ∧
  (∀ j < m.length, tmark.get? (m.text_index + j) = some true)

/-- Both spans of a match are fully unmarked in the given bitmaps. -/
def SpanUnmarked (pmark tmark : List Bool) (m : Match) : Prop :=
  (∀ j < m.length, pmark.get? (m.pattern_index + j) = some false) ∧
  (∀ j < m.length, tmark.get? (m.text_index + j) = some false)

/-- The driver invariant: bitmaps sized to their sequences, every
accumulated result sound (`MatchOK` with length bound `L`), pairwise
disjoint, and with both spans marked. -/
def Inv (pattern text : List Nat) (L : Nat) (st : St) : Prop :=
  st.pmark.length = pattern.length ∧
  st.tmark.length = text.length ∧
  (∀ m ∈ st.result, MatchOK pattern text L m) ∧
  st.result.Pairwise SpanDisjoint ∧
  (∀ m ∈ st.result, SpanMarked st.pmark st.tmark m)

/-- An unmarked common window of width `s` at offsets `p*`, `t*`: what a
scan at search length `s` is guaranteed to discover. -/
def GoodPair (pattern text : List Nat) (pmark tmark : List Bool)
    (s pStar tStar : Nat) : Prop :=
  pStar + s ≤ pattern.length ∧ tStar + s ≤ text.length ∧
  ∀ j < s,
    text.getD (tStar + j) 0 = pattern.getD (pStar + j) 0 ∧
    tmark.get? (tStar + j) = some false ∧
    pmark.get? (pStar + j) = some false

/-- Number of `false` entries of a bitmap: the unmarked positions (used as
a termination measure for the driver). -/
def countFalse (mark : List Bool) : Nat := mark.count false

/-- The plain sum of the `s` bytes of the window starting at `i`: the
closed form of the `a` component of the rolling checksum. -/
def aSum (l : List Nat) (i s : Nat) : Nat :=
  ∑ j ∈ Finset.range s, l.getD (i + j) 0

/-- The weighted sum of the window, each byte counted once per update it
survives: the closed form of the `b` component of the rolling checksum. -/
def bSum (l : List Nat) (i s : Nat) : Nat :=
  ∑ j ∈ Finset.range s, (s - j) * l.getD (i + j) 0

/-- The byte string `"lower"` of the repository's `simple_match` test. -/
def lowerBytes : List Nat := [108, 111, 119, 101, 114]

/-- The byte string `"yellow"` of the repository's `simple_match` test. -/
def yellowBytes : List Nat := [121, 101, 108, 108, 111, 119]

/-- The byte string `"abcdef"` (pattern of the straddling-window scenario). -/
def strP : List Nat := [97, 98, 99, 100, 101, 102]

/-- The byte string `"abcXdef"` (text of the straddling-window scenario). -/
def strT : List Nat := [97, 98, 99, 88, 100, 101, 102]

/-- The byte string `"aaaaa"` (used to exercise the early exit). -/
def aBytes : List Nat := [97, 97, 97, 97, 97]

/-- The state of `run "lower" "yellow" 3 2` right after its first scan. -/
def stC10 : St :=
  { pmark := List.replicate 5 false
    tmark := List.replicate 6 false
    matchList := [⟨0, 3, 3⟩]
    result := [] }

/-- The state of `run "abcdef" "abcXdef" 3 2` right after its first scan. -/
def stC6a : St :=
  { pmark := List.replicate 6 false
    tmark := List.replicate 7 false
    matchList := [⟨0, 0, 3⟩, ⟨3, 4, 3⟩]
    result := [] }

/-- The state of `run "abcdef" "abcXdef" 3 2` after its first
scan-and-tile pass: both length-3 tiles accepted, text position 3 left
unmarked between two marked runs. -/
def stC6 : St :=
  { pmark := List.replicate 6 true
    tmark := [true, true, true, false, true, true, true]
    matchList := []
    result := [⟨0, 0, 3⟩, ⟨3, 4, 3⟩] }

/-- The state of `run [97] [97] 1 0` right after its first scan. -/
def stC7a : St :=
  { pmark := [false], tmark := [false]
    matchList := [⟨0, 0, 1⟩], result := [] }

/-- The state of `run [97] [97] 1 0` after its first scan-and-tile pass. -/
def stC7 : St :=
  { pmark := [true], tmark := [true]
    matchList := [], result := [⟨0, 0, 1⟩] }

/-! ## Basic lemmas about the extension loop -/

theorem extendLen_isSome (pattern text : List Nat) (pmark tmark : List Bool)
    (hp : pmark.length = pattern.length) (ht : tmark.length = text.length)
    (pI tI : Nat) : ∀ fuel k0, 1 ≤ fuel → text.length + 1 ≤ fuel + k0 →
    (extendLen pattern text pmark tmark pI tI fuel k0).isSome := by
  intro fuel
  induction fuel with
  | zero => intro k0 h1 _; omega
  | succ fuel ih =>
      intro k0 _ hfe
      rw [extendLen]
      by_cases hin : tI + k0 < text.length ∧ pI + k0 < pattern.length ∧
          text.getD (tI + k0) 0 = pattern.getD (pI + k0) 0
      · rw [if_pos hin]
        cases hgt : tmark.get? (tI + k0) with
        | none => rw [List.get?_eq_none] at hgt; omega
        | some b =>
            cases b with
            | true => rfl
            | false =>
                cases hgp : pmark.get? (pI + k0) with
                | none => rw [List.get?_eq_none] at hgp; omega
                | some b2 =>
                    cases b2 with
                    | true => rfl
                    | false => exact ih (k0 + 1) (by omega) (by omega)
      · rw [if_neg hin]; rfl

theorem extendLen_spec (pattern text : List Nat) (pmark tmark : List Bool)
    (pI tI : Nat) : ∀ fuel k0 k,
    extendLen pattern text pmark tmark pI tI fuel k0 = some k →
    k0 ≤ k ∧ ∀ j, k0 ≤ j → j < k →
      tI + j < text.length ∧ pI + j < pattern.length ∧
      text.getD (tI + j) 0 = pattern.getD (pI + j) 0 ∧
      tmark.get? (tI + j) = some false ∧ pmark.get? (pI + j) = some false := by
  intro fuel
  induction fuel with
  | zero =>
      intro k0 k hk
      rw [extendLen] at hk
      exact absurd hk (by simp)
  | succ fuel ih =>
      intro k0 k hk
      rw [extendLen] at hk
      by_cases hin : tI + k0 < text.length ∧ pI + k0 < pattern.length ∧
          text.getD (tI + k0) 0 = pattern.getD (pI + k0) 0
      · rw [if_pos hin] at hk
        cases hgt : tmark.get? (tI + k0) with
        | none => rw [hgt] at hk; exact absurd hk (by simp)
        | some b =>
            cases b with
            | true =>
                rw [hgt] at hk
                simp only [Option.some_inj] at hk
                subst hk
                exact ⟨le_refl _, fun j h1 h2 => absurd h1 (by omega)⟩
            | false =>
                rw [hgt] at hk
                simp only [] at hk
                cases hgp : pmark.get? (pI + k0) with
                | none => rw [hgp] at hk; exact absurd hk (by simp)
                | some b2 =>
                    cases b2 with
                    | true =>
                        rw [hgp] at hk
                        simp only [Option.some_inj] at hk
                        subst hk
                        exact ⟨le_refl _, fun j h1 h2 => absurd h1 (by omega)⟩
                    | false =>
                        rw [hgp] at hk
                        obtain ⟨h1, h2⟩ := ih (k0 + 1) k hk
                        refine ⟨by omega, fun j hj1 hj2 => ?_⟩
                        rcases Nat.eq_or_lt_of_le hj1 with heq | hlt
                        · subst heq
                          exact ⟨hin.1, hin.2.1, hin.2.2, hgt, hgp⟩
                        · exact h2 j hlt hj2
      · rw [if_neg hin] at hk
        simp only [Option.some_inj] at hk
        subst hk
        exact ⟨le_refl _, fun j h1 h2 => absurd h1 (by omega)⟩

theorem extendLen_ge_of_good (pattern text : List Nat) (pmark tmark : List Bool)
    (pI tI s k : Nat)
    (hgood : ∀ j < s,
      tI + j < text.length ∧ pI + j < pattern.length ∧
      text.getD (tI + j) 0 = pattern.getD (pI + j) 0 ∧
      tmark.get? (tI + j) = some false ∧ pmark.get? (pI + j) = some false) :
    ∀ fuel k0, k0 ≤ s →
    extendLen pattern text pmark tmark pI tI fuel k0 = some k → s ≤ k := by
  intro fuel
  induction fuel with
  | zero =>
      intro k0 _ hext
      rw [extendLen] at hext
      exact absurd hext (by simp)
  | succ fuel ih =>
      intro k0 hk0 hext
      rcases Nat.eq_or_lt_of_le hk0 with heq | hlt
      · subst heq
        exact (extendLen_spec pattern text pmark tmark pI tI (fuel + 1) k0 k hext).1
      · obtain ⟨hg1, hg2, hg3, hg4, hg5⟩ := hgood k0 hlt
        rw [extendLen, if_pos ⟨hg1, hg2, hg3⟩, hg4, hg5] at hext
        exact ih (k0 + 1) (by omega) hext

/-! ## Lemmas about the probe loop -/

theorem probeList_spec (pattern text : List Nat) (pmark tmark : List Bool)
    (s pI : Nat) : ∀ ts acc mx,
    (∀ k acc', probeList pattern text pmark tmark s pI ts acc mx = .early k acc' →
      2 * s < k ∧
      (∃ tJ, extendLen pattern text pmark tmark pI tJ (text.length + 1) 0 = some k) ∧
      ∃ new, acc' = acc ++ new ∧
        ∀ c ∈ new, CandProp pattern text pmark tmark s c) ∧
    (∀ acc' mx', probeList pattern text pmark tmark s pI ts acc mx = .done acc' mx' →
      (∃ new, acc' = acc ++ new ∧
        ∀ c ∈ new, CandProp pattern text pmark tmark s c) ∧
      mx ≤ mx' ∧ mx' ≤ max mx (2 * s) ∧
      (mx' = mx ∨ ∃ c ∈ acc', c.length = mx')) := by
  intro ts
  induction ts with
  | nil =>
      intro acc mx
      constructor
      · intro k acc' hpr
        exact absurd hpr (by rw [probeList]; simp)
      · intro acc' mx' hpr
        rw [probeList] at hpr
        cases hpr
        exact ⟨⟨[], by simp⟩, le_refl _, le_max_left _ _, Or.inl rfl⟩
  | cons tI rest ih =>
      intro acc mx
      constructor
      · intro k acc' hpr
        rw [probeList] at hpr
        cases hext : extendLen pattern text pmark tmark pI tI (text.length + 1) 0 with
        | none => rw [hext] at hpr; exact absurd hpr (by simp)
        | some kv =>
            rw [hext] at hpr
            simp only [] at hpr
            by_cases h2 : 2 * s < kv
            · rw [if_pos h2] at hpr
              cases hpr
              exact ⟨h2, ⟨tI, hext⟩, ⟨[], by simp⟩⟩
            · rw [if_neg h2] at hpr
              by_cases hs : s ≤ kv
              · rw [if_pos hs] at hpr
                obtain ⟨hk, hw, new, hacc, hcand⟩ := (ih _ _).1 k acc' hpr
                refine ⟨hk, hw, ⟨pI, tI, kv⟩ :: new, by simp [hacc], ?_⟩
                intro c hc
                rcases List.mem_cons.mp hc with rfl | hc
                · exact ⟨hext, hs, by show kv ≤ 2 * s; omega⟩
                · exact hcand c hc
              · rw [if_neg hs] at hpr
                exact (ih _ _).1 k acc' hpr
      · intro acc' mx' hpr
        rw [probeList] at hpr
        cases hext : extendLen pattern text pmark tmark pI tI (text.length + 1) 0 with
        | none => rw [hext] at hpr; exact absurd hpr (by simp)
        | some kv =>
            rw [hext] at hpr
            simp only [] at hpr
            by_cases h2 : 2 * s < kv
            · rw [if_pos h2] at hpr
              exact absurd hpr (by simp)
            · rw [if_neg h2] at hpr
              by_cases hs : s ≤ kv
              · rw [if_pos hs] at hpr
                obtain ⟨⟨new, hacc, hcand⟩, hm1, hm2, hm3⟩ := (ih _ _).2 acc' mx' hpr
                have hkv2 : kv ≤ 2 * s := by omega
                refine ⟨⟨⟨pI, tI, kv⟩ :: new, by simp [hacc], ?_⟩,
                  le_trans (le_max_left mx kv) hm1,
                  le_trans hm2 (max_le (max_le (le_max_left _ _)
                    (le_trans hkv2 (le_max_right _ _))) (le_max_right _ _)), ?_⟩
                · intro c hc
                  rcases List.mem_cons.mp hc with rfl | hc
                  · exact ⟨hext, hs, hkv2⟩
                  · exact hcand c hc
                · rcases hm3 with heq | hex
                  · rcases Nat.le_total mx kv with hle | hle
                    · refine Or.inr ⟨⟨pI, tI, kv⟩, ?_, ?_⟩
                      · rw [hacc]
                        simp
                      · show kv = mx'
                        rw [heq, max_eq_right hle]
                    · left
                      rw [heq, max_eq_left hle]
                  · exact Or.inr hex
              · rw [if_neg hs] at hpr
                obtain ⟨⟨new, hacc, hcand⟩, hm1, hm2, hm3⟩ := (ih _ _).2 acc' mx' hpr
                exact ⟨⟨new, hacc, hcand⟩, hm1, hm2, hm3⟩

theorem probeList_ne_fail (pattern text : List Nat) (pmark tmark : List Bool)
    (hp : pmark.length = pattern.length) (ht : tmark.length = text.length)
    (s pI : Nat) : ∀ ts acc mx,
    probeList pattern text pmark tmark s pI ts acc mx ≠ .fail := by
  intro ts
  induction ts with
  | nil => intro acc mx; rw [probeList]; simp
  | cons tI rest ih =>
      intro acc mx
      rw [probeList]
      cases hext : extendLen pattern text pmark tmark pI tI (text.length + 1) 0 with
      | none =>
          have := extendLen_isSome pattern text pmark tmark hp ht pI tI
            (text.length + 1) 0 (by omega) (by omega)
          rw [hext] at this
          exact absurd this (by simp)
      | some kv =>
          simp only []
          by_cases h2 : 2 * s < kv
          · rw [if_pos h2]; simp
          · rw [if_neg h2]
            by_cases hs : s ≤ kv
            · rw [if_pos hs]; exact ih _ _
            · rw [if_neg hs]; exact ih _ _

theorem probeList_cover (pattern text : List Nat) (pmark tmark : List Bool)
    (hp : pmark.length = pattern.length) (ht : tmark.length = text.length)
    (s pI tJ kJ : Nat)
    (hext : extendLen pattern text pmark tmark pI tJ (text.length + 1) 0 = some kJ)
    (hs : s ≤ kJ) : ∀ ts acc mx, tJ ∈ ts →
    (∃ k acc', probeList pattern text pmark tmark s pI ts acc mx = .early k acc' ∧
      2 * s < k) ∨
    (∃ acc' mx', probeList pattern text pmark tmark s pI ts acc mx = .done acc' mx' ∧
      kJ ≤ mx') := by
  intro ts
  induction ts with
  | nil => intro acc mx hmem; exact absurd hmem (by simp)
  | cons tI rest ih =>
      intro acc mx hmem
      rw [probeList]
      cases hext1 : extendLen pattern text pmark tmark pI tI (text.length + 1) 0 with
      | none =>
          have := extendLen_isSome pattern text pmark tmark hp ht pI tI
            (text.length + 1) 0 (by omega) (by omega)
          rw [hext1] at this
          exact absurd this (by simp)
      | some kv =>
          simp only []
          rcases List.mem_cons.mp hmem with rfl | hmem2
          · rw [hext1] at hext
            rw [show kJ = kv from (Option.some_inj.mp hext).symm] at hs ⊢
            by_cases h2 : 2 * s < kv
            · rw [if_pos h2]
              exact Or.inl ⟨kv, acc, rfl, h2⟩
            · rw [if_neg h2, if_pos hs]
              cases hres : probeList pattern text pmark tmark s pI rest
                  (acc ++ [⟨pI, tJ, kv⟩]) (max mx kv) with
              | fail => exact absurd hres (probeList_ne_fail pattern text pmark tmark hp ht s pI _ _ _)
              | early k acc' =>
                  obtain ⟨hk, _, _⟩ :=
                    (probeList_spec pattern text pmark tmark s pI rest _ _).1 k acc' hres
                  exact Or.inl ⟨k, acc', rfl, hk⟩
              | done acc' mx' =>
                  obtain ⟨_, hm1, _, _⟩ :=
                    (probeList_spec pattern text pmark tmark s pI rest _ _).2 acc' mx' hres
                  exact Or.inr ⟨acc', mx', rfl, le_trans (le_max_right mx kv) hm1⟩
          · by_cases h2 : 2 * s < kv
            · rw [if_pos h2]
              exact Or.inl ⟨kv, acc, rfl, h2⟩
            · rw [if_neg h2]
              by_cases hkvs : s ≤ kv
              · rw [if_pos hkvs]; exact ih _ _ hmem2
              · rw [if_neg hkvs]; exact ih _ _ hmem2

/-! ## Lemmas about the inner pattern-walk loop -/

theorem probeStep_spec (pattern text : List Nat) (pmark tmark : List Bool)
    (s : Nat) (m : HMap) (hv i : Nat) (acc : List Match) (mx : Nat) :
    (∀ k acc', (match mapFind m hv with
        | none => ProbeRes.done acc mx
        | some ts => probeList pattern text pmark tmark s i ts acc mx) =
        ProbeRes.early k acc' →
      2 * s < k ∧
      (∃ pJ tJ, extendLen pattern text pmark tmark pJ tJ (text.length + 1) 0 = some k) ∧
      ∃ new, acc' = acc ++ new ∧
        ∀ c ∈ new, CandProp pattern text pmark tmark s c) ∧
    (∀ acc' mx', (match mapFind m hv with
        | none => ProbeRes.done acc mx
        | some ts => probeList pattern text pmark tmark s i ts acc mx) =
        ProbeRes.done acc' mx' →
      (∃ new, acc' = acc ++ new ∧
        ∀ c ∈ new, CandProp pattern text pmark tmark s c) ∧
      mx ≤ mx' ∧ mx' ≤ max mx (2 * s) ∧
      (mx' = mx ∨ ∃ c ∈ acc', c.length = mx')) := by
  cases hfind : mapFind m hv with
  | none =>
      constructor
      · intro k acc' hpr
        exact absurd hpr (by simp)
      · intro acc' mx' hpr
        simp only [ProbeRes.done.injEq] at hpr
        obtain ⟨rfl, rfl⟩ := hpr
        exact ⟨⟨[], by simp⟩, le_refl _, le_max_left _ _, Or.inl rfl⟩
  | some ts =>
      constructor
      · intro k acc' hpr
        obtain ⟨hk, ⟨tJ, htJ⟩, hnew⟩ :=
          (probeList_spec pattern text pmark tmark s i ts acc mx).1 k acc' hpr
        exact ⟨hk, ⟨i, tJ, htJ⟩, hnew⟩
      · intro acc' mx' hpr
        exact (probeList_spec pattern text pmark tmark s i ts acc mx).2 acc' mx' hpr

theorem probeStep_ne_fail (pattern text : List Nat) (pmark tmark : List Bool)
    (hp : pmark.length = pattern.length) (ht : tmark.length = text.length)
    (s : Nat) (m : HMap) (hv i : Nat) (acc : List Match) (mx : Nat) :
    (match mapFind m hv with
      | none => ProbeRes.done acc mx
      | some ts => probeList pattern text pmark tmark s i ts acc mx) ≠
      ProbeRes.fail := by
  cases hfind : mapFind m hv with
  | none => simp
  | some ts => exact probeList_ne_fail pattern text pmark tmark hp ht s i ts acc mx

theorem scanInner_spec (pattern text : List Nat) (pmark tmark : List Bool)
    (s : Nat) (m : HMap) : ∀ fuel i h acc mx,
    (∀ k acc', scanInner pattern text pmark tmark s m fuel i h acc mx = .early k acc' →
      2 * s < k ∧
      (∃ pJ tJ, extendLen pattern text pmark tmark pJ tJ (text.length + 1) 0 = some k) ∧
      ∃ new, acc' = acc ++ new ∧
        ∀ c ∈ new, CandProp pattern text pmark tmark s c) ∧
    (∀ i2 acc' mx', scanInner pattern text pmark tmark s m fuel i h acc mx = .cont i2 acc' mx' →
      i ≤ i2 ∧
      (pmark.get? (i + s - 1) = some false → i + 1 ≤ i2) ∧
      (∃ new, acc' = acc ++ new ∧
        ∀ c ∈ new, CandProp pattern text pmark tmark s c) ∧
      mx ≤ mx' ∧ mx' ≤ max mx (2 * s) ∧
      (mx' = mx ∨ ∃ c ∈ acc', c.length = mx')) := by
  intro fuel
  induction fuel with
  | zero =>
      intro i h acc mx
      constructor
      · intro k acc' hres
        rw [scanInner] at hres
        exact absurd hres (by simp)
      · intro i2 acc' mx' hres
        rw [scanInner] at hres
        exact absurd hres (by simp)
  | succ fuel ih =>
      intro i h acc mx
      constructor
      · intro k acc' hres
        rw [scanInner] at hres
        by_cases h0 : i + s = 0
        · rw [if_pos h0] at hres
          exact absurd hres (by simp)
        · rw [if_neg h0] at hres
          cases hget : pmark.get? (i + s - 1) with
          | none => rw [hget] at hres; exact absurd hres (by simp)
          | some b =>
              cases b with
              | true =>
                  rw [hget] at hres
                  simp only [] at hres
                  exact absurd hres (by simp)
              | false =>
                  rw [hget] at hres
                  simp only [] at hres
                  cases hpr : (match mapFind m h.hash with
                      | none => ProbeRes.done acc mx
                      | some ts => probeList pattern text pmark tmark s i ts acc mx) with
                  | fail => rw [hpr] at hres; exact absurd hres (by simp)
                  | early k0 acc0 =>
                      rw [hpr] at hres
                      simp only [] at hres
                      obtain ⟨rfl, rfl⟩ : k0 = k ∧ acc0 = acc' := by
                        injection hres with ha hb
                        exact ⟨ha, hb⟩
                      exact (probeStep_spec pattern text pmark tmark s m h.hash i acc mx).1
                        k0 acc0 hpr
                  | done acc0 mx0 =>
                      rw [hpr] at hres
                      simp only [] at hres
                      by_cases hstop : pattern.length < i + 1 + s
                      · rw [if_pos hstop] at hres
                        exact absurd hres (by simp)
                      · rw [if_neg hstop] at hres
                        obtain ⟨hk, hw, new1, hacc1, hcand1⟩ := (ih _ _ _ _).1 k acc' hres
                        obtain ⟨new0, hacc0, hcand0⟩ :=
                          ((probeStep_spec pattern text pmark tmark s m h.hash i acc mx).2
                            acc0 mx0 hpr).1
                        refine ⟨hk, hw, new0 ++ new1,
                          by rw [hacc1, hacc0, List.append_assoc], ?_⟩
                        intro c hc
                        rcases List.mem_append.mp hc with hc | hc
                        · exact hcand0 c hc
                        · exact hcand1 c hc
      · intro i2 acc' mx' hres
        rw [scanInner] at hres
        by_cases h0 : i + s = 0
        · rw [if_pos h0] at hres
          exact absurd hres (by simp)
        · rw [if_neg h0] at hres
          cases hget : pmark.get? (i + s - 1) with
          | none => rw [hget] at hres; exact absurd hres (by simp)
          | some b =>
              cases b with
              | true =>
                  rw [hget] at hres
                  simp only [] at hres
                  obtain ⟨rfl, rfl, rfl⟩ : i = i2 ∧ acc = acc' ∧ mx = mx' := by
                    injection hres with ha hb hc
                    exact ⟨ha, hb, hc⟩
                  refine ⟨le_refl _, fun hfalse => ?_, ⟨[], by simp⟩, le_refl _,
                    le_max_left _ _, Or.inl rfl⟩
                  exact absurd hfalse (by simp)
              | false =>
                  rw [hget] at hres
                  simp only [] at hres
                  cases hpr : (match mapFind m h.hash with
                      | none => ProbeRes.done acc mx
                      | some ts => probeList pattern text pmark tmark s i ts acc mx) with
                  | fail => rw [hpr] at hres; exact absurd hres (by simp)
                  | early k0 acc0 =>
                      rw [hpr] at hres
                      simp only [] at hres
                      exact absurd hres (by simp)
                  | done acc0 mx0 =>
                      rw [hpr] at hres
                      simp only [] at hres
                      obtain ⟨⟨new0, hacc0, hcand0⟩, hn1, hn2, hn3⟩ :=
                        (probeStep_spec pattern text pmark tmark s m h.hash i acc mx).2
                          acc0 mx0 hpr
                      by_cases hstop : pattern.length < i + 1 + s
                      · rw [if_pos hstop] at hres
                        obtain ⟨rfl, rfl, rfl⟩ : i + 1 = i2 ∧ acc0 = acc' ∧ mx0 = mx' := by
                          injection hres with ha hb hc
                          exact ⟨ha, hb, hc⟩
                        exact ⟨by omega, fun _ => le_refl _, ⟨new0, hacc0, hcand0⟩,
                          hn1, hn2, hn3⟩
                      · rw [if_neg hstop] at hres
                        obtain ⟨hi2, _, ⟨new1, hacc1, hcand1⟩, hmx1, hmx2, hmx3⟩ :=
                          (ih _ _ _ _).2 i2 acc' mx' hres
                        refine ⟨by omega, fun _ => by omega,
                          ⟨new0 ++ new1, by rw [hacc1, hacc0, List.append_assoc], ?_⟩,
                          le_trans hn1 hmx1,
                          le_trans hmx2 (max_le hn2 (le_max_right _ _)), ?_⟩
                        · intro c hc
                          rcases List.mem_append.mp hc with hc | hc
                          · exact hcand0 c hc
                          · exact hcand1 c hc
                        · rcases hmx3 with heq | hex
                          · rw [heq]
                            rcases hn3 with heq0 | ⟨c, hc, hlen⟩
                            · exact Or.inl heq0
                            · exact Or.inr ⟨c,
                                by rw [hacc1]; exact List.mem_append_left _ hc, hlen⟩
                          · exact Or.inr hex

theorem scanInner_ne_fail (pattern text : List Nat) (pmark tmark : List Bool)
    (hp : pmark.length = pattern.length) (ht : tmark.length = text.length)
    (s : Nat) (hs : 1 ≤ s) (m : HMap) : ∀ fuel i h acc mx, 1 ≤ fuel →
    pattern.length + 1 ≤ fuel + i → i + s ≤ pattern.length →
    scanInner pattern text pmark tmark s m fuel i h acc mx ≠ .fail := by
  intro fuel
  induction fuel with
  | zero => intro i h acc mx h1 _ _; omega
  | succ fuel ih =>
      intro i h acc mx _ hfe hle
      rw [scanInner]
      have h0 : ¬ i + s = 0 := by omega
      rw [if_neg h0]
      cases hget : pmark.get? (i + s - 1) with
      | none =>
          rw [List.get?_eq_none] at hget
          omega
      | some b =>
          cases b with
          | true => simp
          | false =>
              simp only []
              cases hpr : (match mapFind m h.hash with
                  | none => ProbeRes.done acc mx
                  | some ts => probeList pattern text pmark tmark s i ts acc mx) with
              | fail =>
                  exact absurd hpr
                    (probeStep_ne_fail pattern text pmark tmark hp ht s m h.hash i acc mx)
              | early k0 acc0 =>
                  simp
              | done acc0 mx0 =>
                  simp only []
                  by_cases hstop : pattern.length < i + 1 + s
                  · rw [if_pos hstop]; simp
                  · rw [if_neg hstop]
                    exact ih (i + 1) _ acc0 mx0 (by omega) (by omega) (by omega)

/-! ## Lemmas about the jump loop -/

theorem firstMarked_isSome (mark : List Bool) : ∀ n i, i + n ≤ mark.length →
    (firstMarked mark i n).isSome := by
  intro n
  induction n with
  | zero => intro i _; rw [firstMarked]; rfl
  | succ n ih =>
      intro i hle
      rw [firstMarked]
      cases hget : mark.get? i with
      | none =>
          rw [List.get?_eq_none] at hget
          omega
      | some b =>
          cases b with
          | true => rfl
          | false => exact ih (i + 1) (by omega)

theorem firstMarked_none_spec (mark : List Bool) : ∀ n i,
    firstMarked mark i n = some none →
    ∀ d < n, mark.get? (i + d) = some false := by
  intro n
  induction n with
  | zero => intro i _ d hd; omega
  | succ n ih =>
      intro i hfm d hd
      rw [firstMarked] at hfm
      cases hget : mark.get? i with
      | none => rw [hget] at hfm; exact absurd hfm (by simp)
      | some b =>
          cases b with
          | true => rw [hget] at hfm; exact absurd hfm (by simp)
          | false =>
              rw [hget] at hfm
              cases d with
              | zero => exact hget
              | succ d =>
                  have := ih (i + 1) hfm d (by omega)
                  rw [show i + (d + 1) = i + 1 + d by omega]
                  exact this

theorem firstMarked_some_spec (mark : List Bool) : ∀ n i j,
    firstMarked mark i n = some (some j) →
    i ≤ j ∧ j < i + n ∧ mark.get? j = some true := by
  intro n
  induction n with
  | zero =>
      intro i j hfm
      rw [firstMarked] at hfm
      exact absurd hfm (by simp)
  | succ n ih =>
      intro i j hfm
      rw [firstMarked] at hfm
      cases hget : mark.get? i with
      | none => rw [hget] at hfm; exact absurd hfm (by simp)
      | some b =>
          cases b with
          | true =>
              rw [hget] at hfm
              simp only [Option.some_inj] at hfm
              rw [← hfm]
              exact ⟨le_refl _, by omega, hget⟩
          | false =>
              rw [hget] at hfm
              obtain ⟨h1, h2, h3⟩ := ih (i + 1) j hfm
              exact ⟨by omega, by omega, h3⟩

/-! ## Position bounds for the two inner loops -/

theorem scanInner_cont_le (pattern text : List Nat) (pmark tmark : List Bool)
    (s : Nat) (m : HMap) : ∀ fuel i h acc mx i2 acc' mx', i + s ≤ pattern.length →
    scanInner pattern text pmark tmark s m fuel i h acc mx = .cont i2 acc' mx' →
    i2 + s ≤ pattern.length + 1 := by
  intro fuel
  induction fuel with
  | zero =>
      intro i h acc mx i2 acc' mx' _ hres
      rw [scanInner] at hres
      exact absurd hres (by simp)
  | succ fuel ih =>
      intro i h acc mx i2 acc' mx' hle hres
      rw [scanInner] at hres
      by_cases h0 : i + s = 0
      · rw [if_pos h0] at hres
        exact absurd hres (by simp)
      · rw [if_neg h0] at hres
        cases hget : pmark.get? (i + s - 1) with
        | none => rw [hget] at hres; exact absurd hres (by simp)
        | some b =>
            cases b with
            | true =>
                rw [hget] at hres
                simp only [] at hres
                obtain ⟨rfl, rfl, rfl⟩ : i = i2 ∧ acc = acc' ∧ mx = mx' := by
                  injection hres with ha hb hc
                  exact ⟨ha, hb, hc⟩
                omega
            | false =>
                rw [hget] at hres
                simp only [] at hres
                cases hpr : (match mapFind m h.hash with
                    | none => ProbeRes.done acc mx
                    | some ts => probeList pattern text pmark tmark s i ts acc mx) with
                | fail => rw [hpr] at hres; exact absurd hres (by simp)
                | early k0 acc0 =>
                    rw [hpr] at hres
                    simp only [] at hres
                    exact absurd hres (by simp)
                | done acc0 mx0 =>
                    rw [hpr] at hres
                    simp only [] at hres
                    by_cases hstop : pattern.length < i + 1 + s
                    · rw [if_pos hstop] at hres
                      obtain ⟨rfl, rfl, rfl⟩ : i + 1 = i2 ∧ acc0 = acc' ∧ mx0 = mx' := by
                        injection hres with ha hb hc
                        exact ⟨ha, hb, hc⟩
                      omega
                    · rw [if_neg hstop] at hres
                      exact ih (i + 1) _ acc0 mx0 i2 acc' mx' (by omega) hres

/-! ## Lemmas about the outer pattern walk -/

theorem scanOuter_spec (pattern text : List Nat) (pmark tmark : List Bool)
    (s : Nat) (m : HMap) : ∀ fuel i acc mx,
    (∀ k acc', scanOuter pattern text pmark tmark s m fuel i acc mx = .early k acc' →
      2 * s < k ∧
      (∃ pJ tJ, extendLen pattern text pmark tmark pJ tJ (text.length + 1) 0 = some k) ∧
      ∃ new, acc' = acc ++ new ∧
        ∀ c ∈ new, CandProp pattern text pmark tmark s c) ∧
    (∀ i2 acc' mx', scanOuter pattern text pmark tmark s m fuel i acc mx = .cont i2 acc' mx' →
      (∃ new, acc' = acc ++ new ∧
        ∀ c ∈ new, CandProp pattern text pmark tmark s c) ∧
      mx ≤ mx' ∧ mx' ≤ max mx (2 * s) ∧
      (mx' = mx ∨ ∃ c ∈ acc', c.length = mx')) := by
  have trivialCont : ∀ (acc : List Match) (mx : Nat),
      (∃ new, acc = acc ++ new ∧
        ∀ c ∈ new, CandProp pattern text pmark tmark s c) ∧
      mx ≤ mx ∧ mx ≤ max mx (2 * s) ∧
      (mx = mx ∨ ∃ c ∈ acc, c.length = mx) :=
    fun acc mx => ⟨⟨[], by simp⟩, le_refl _, le_max_left _ _, Or.inl rfl⟩
  have chain : ∀ i1 acc mx i2 acc2 mx2 kind,
      scanInner pattern text pmark tmark s m (pattern.length + 1) i1
        (hashRange pattern i1 s) acc mx = .cont i2 acc2 mx2 →
      ((∃ new, kind = acc2 ++ new ∧
          ∀ c ∈ new, CandProp pattern text pmark tmark s c) →
        ∃ new, kind = acc ++ new ∧
          ∀ c ∈ new, CandProp pattern text pmark tmark s c) := by
    intro i1 acc mx i2 acc2 mx2 kind hsi ⟨new1, hacc1, hcand1⟩
    obtain ⟨_, _, ⟨new0, hacc0, hcand0⟩, _, _, _⟩ :=
      (scanInner_spec pattern text pmark tmark s m (pattern.length + 1) i1
        (hashRange pattern i1 s) acc mx).2 i2 acc2 mx2 hsi
    refine ⟨new0 ++ new1, by rw [hacc1, hacc0, List.append_assoc], ?_⟩
    intro c hc
    rcases List.mem_append.mp hc with hc | hc
    · exact hcand0 c hc
    · exact hcand1 c hc
  intro fuel
  induction fuel with
  | zero =>
      intro i acc mx
      constructor
      · intro k acc' hres
        rw [scanOuter] at hres
        exact absurd hres (by simp)
      · intro i2 acc' mx' hres
        rw [scanOuter] at hres
        exact absurd hres (by simp)
  | succ fuel ih =>
      intro i acc mx
      have main : ∀ i1, scanOuter pattern text pmark tmark s m (fuel + 1) i acc mx =
          (if pattern.length < i1 + s then InnerRes.cont i1 acc mx
           else
            match scanInner pattern text pmark tmark s m (pattern.length + 1) i1
                (hashRange pattern i1 s) acc mx with
            | .fail => InnerRes.fail
            | .early k acc' => InnerRes.early k acc'
            | .cont i2 acc' mx' =>
                scanOuter pattern text pmark tmark s m fuel i2 acc' mx') →
          (∀ k acc', scanOuter pattern text pmark tmark s m (fuel + 1) i acc mx = .early k acc' →
            2 * s < k ∧
            (∃ pJ tJ, extendLen pattern text pmark tmark pJ tJ (text.length + 1) 0 = some k) ∧
            ∃ new, acc' = acc ++ new ∧
              ∀ c ∈ new, CandProp pattern text pmark tmark s c) ∧
          (∀ i2 acc' mx', scanOuter pattern text pmark tmark s m (fuel + 1) i acc mx = .cont i2 acc' mx' →
            (∃ new, acc' = acc ++ new ∧
              ∀ c ∈ new, CandProp pattern text pmark tmark s c) ∧
            mx ≤ mx' ∧ mx' ≤ max mx (2 * s) ∧
            (mx' = mx ∨ ∃ c ∈ acc', c.length = mx')) := by
        intro i1 hunf
        constructor
        · intro k acc' hres
          rw [hunf] at hres
          by_cases hb1 : pattern.length < i1 + s
          · rw [if_pos hb1] at hres
            exact absurd hres (by simp)
          · rw [if_neg hb1] at hres
            cases hsi : scanInner pattern text pmark tmark s m (pattern.length + 1) i1
                (hashRange pattern i1 s) acc mx with
            | fail => rw [hsi] at hres; exact absurd hres (by simp)
            | early k1 acc1 =>
                rw [hsi] at hres
                simp only [] at hres
                cases hres
                exact (scanInner_spec pattern text pmark tmark s m (pattern.length + 1) i1
                  (hashRange pattern i1 s) acc mx).1 k acc' hsi
            | cont i2 acc2 mx2 =>
                rw [hsi] at hres
                simp only [] at hres
                obtain ⟨hk, hw, hnew⟩ := (ih i2 acc2 mx2).1 k acc' hres
                exact ⟨hk, hw, chain i1 acc mx i2 acc2 mx2 acc' hsi hnew⟩
        · intro i2 acc' mx' hres
          rw [hunf] at hres
          by_cases hb1 : pattern.length < i1 + s
          · rw [if_pos hb1] at hres
            injection hres with h1 h2 h3
            subst h2
            subst h3
            exact trivialCont acc mx
          · rw [if_neg hb1] at hres
            cases hsi : scanInner pattern text pmark tmark s m (pattern.length + 1) i1
                (hashRange pattern i1 s) acc mx with
            | fail => rw [hsi] at hres; exact absurd hres (by simp)
            | early k1 acc1 =>
                rw [hsi] at hres
                exact absurd hres (by simp)
            | cont i3 acc3 mx3 =>
                rw [hsi] at hres
                simp only [] at hres
                obtain ⟨hnew1, hmx1, hmx2, hmx3⟩ := (ih i3 acc3 mx3).2 i2 acc' mx' hres
                obtain ⟨_, _, ⟨new0, hacc0, hcand0⟩, hn1, hn2, hn3⟩ :=
                  (scanInner_spec pattern text pmark tmark s m (pattern.length + 1) i1
                    (hashRange pattern i1 s) acc mx).2 i3 acc3 mx3 hsi
                refine ⟨chain i1 acc mx i3 acc3 mx3 acc' hsi hnew1,
                  le_trans hn1 hmx1,
                  le_trans hmx2 (max_le hn2 (le_max_right _ _)), ?_⟩
                rcases hmx3 with heq | hex
                · rw [heq]
                  rcases hn3 with heq0 | ⟨c, hc, hlen⟩
                  · exact Or.inl heq0
                  · refine Or.inr ⟨c, ?_, hlen⟩
                    obtain ⟨new1, hacc1, _⟩ := hnew1
                    rw [hacc1]
                    exact List.mem_append_left _ hc
                · exact Or.inr hex
      by_cases hb : pattern.length < i + s
      · constructor
        · intro k acc' hres
          rw [scanOuter, if_pos hb] at hres
          exact absurd hres (by simp)
        · intro i2 acc' mx' hres
          rw [scanOuter, if_pos hb] at hres
          injection hres with h1 h2 h3
          subst h2
          subst h3
          exact trivialCont acc mx
      · cases hfm : firstMarked pmark i s with
        | none =>
            constructor
            · intro k acc' hres
              rw [scanOuter, if_neg hb, hfm] at hres
              exact absurd hres (by simp)
            · intro i2 acc' mx' hres
              rw [scanOuter, if_neg hb, hfm] at hres
              exact absurd hres (by simp)
        | some jo =>
            cases jo with
            | none =>
                exact main i (by rw [scanOuter, if_neg hb, hfm])
            | some j =>
                exact main (j + 1) (by rw [scanOuter, if_neg hb, hfm])

theorem scanOuter_ne_fail (pattern text : List Nat) (pmark tmark : List Bool)
    (hp : pmark.length = pattern.length) (ht : tmark.length = text.length)
    (s : Nat) (hs : 1 ≤ s) (m : HMap) : ∀ fuel i acc mx, 1 ≤ fuel →
    pattern.length + 1 ≤ fuel + i →
    scanOuter pattern text pmark tmark s m fuel i acc mx ≠ .fail := by
  intro fuel
  induction fuel with
  | zero =>
      intro i acc mx h1 hfe
      omega
  | succ fuel ih =>
      intro i acc mx h1 hfe
      have main : ∀ i1, i ≤ i1 → i1 ≤ i + s →
          (pmark.get? (i1 + s - 1) = some true → i < i1) →
          scanOuter pattern text pmark tmark s m (fuel + 1) i acc mx =
          (if pattern.length < i1 + s then InnerRes.cont i1 acc mx
           else
            match scanInner pattern text pmark tmark s m (pattern.length + 1) i1
                (hashRange pattern i1 s) acc mx with
            | .fail => InnerRes.fail
            | .early k acc' => InnerRes.early k acc'
            | .cont i2 acc' mx' =>
                scanOuter pattern text pmark tmark s m fuel i2 acc' mx') →
          scanOuter pattern text pmark tmark s m (fuel + 1) i acc mx ≠ .fail := by
        intro i1 hge hle hmk hunf
        rw [hunf]
        by_cases hb1 : pattern.length < i1 + s
        · rw [if_pos hb1]; simp
        · rw [if_neg hb1]
          cases hsi : scanInner pattern text pmark tmark s m (pattern.length + 1) i1
              (hashRange pattern i1 s) acc mx with
          | fail =>
              exact absurd hsi (scanInner_ne_fail pattern text pmark tmark hp ht s hs m
                (pattern.length + 1) i1 (hashRange pattern i1 s) acc mx
                (by omega) (by omega) (by omega))
          | early k1 acc1 => simp
          | cont i2 acc2 mx2 =>
              have hadv : i + 1 ≤ i2 := by
                obtain ⟨hle2, himp, _, _, _, _⟩ :=
                  (scanInner_spec pattern text pmark tmark s m (pattern.length + 1) i1
                    (hashRange pattern i1 s) acc mx).2 i2 acc2 mx2 hsi
                cases hmark : pmark.get? (i1 + s - 1) with
                | none =>
                    rw [List.get?_eq_none] at hmark
                    omega
                | some b =>
                    cases b with
                    | true => have := hmk hmark; omega
                    | false => have := himp hmark; omega
              have hi2le : i2 + s ≤ pattern.length + 1 :=
                scanInner_cont_le pattern text pmark tmark s m (pattern.length + 1) i1
                  (hashRange pattern i1 s) acc mx i2 acc2 mx2 (by omega) hsi
              exact ih i2 acc2 mx2 (by omega) (by omega)
      by_cases hb : pattern.length < i + s
      · rw [scanOuter, if_pos hb]; simp
      · cases hfm : firstMarked pmark i s with
        | none =>
            have := firstMarked_isSome pmark s i (by omega)
            rw [hfm] at this
            exact absurd this (by simp)
        | some jo =>
            cases jo with
            | none =>
                refine main i (le_refl _) (by omega) ?_ (by rw [scanOuter, if_neg hb, hfm])
                intro htrue
                have hfalse := firstMarked_none_spec pmark s i hfm (s - 1) (by omega)
                rw [show i + (s - 1) = i + s - 1 by omega] at hfalse
                rw [htrue] at hfalse
                exact absurd hfalse (by simp)
            | some j =>
                obtain ⟨hj1, hj2, _⟩ := firstMarked_some_spec pmark s i j hfm
                refine main (j + 1) (by omega) (by omega) (fun _ => by omega)
                  (by rw [scanOuter, if_neg hb, hfm])

/-! ## Lemmas about the text walk (hash-index construction) -/

theorem buildInner_spec (text : List Nat) (tmark : List Bool) (s : Nat) :
    ∀ fuel i h m i2 m2, buildInner text tmark s fuel i h m = some (i2, m2) →
    i ≤ i2 ∧ (tmark.get? (i + s - 1) = some false → i + 1 ≤ i2) ∧
    (i + s ≤ text.length → i2 + s ≤ text.length + 1) := by
  intro fuel
  induction fuel with
  | zero =>
      intro i h m i2 m2 hres
      rw [buildInner] at hres
      exact absurd hres (by simp)
  | succ fuel ih =>
      intro i h m i2 m2 hres
      rw [buildInner] at hres
      by_cases h0 : i + s = 0
      · rw [if_pos h0] at hres
        exact absurd hres (by simp)
      · rw [if_neg h0] at hres
        cases hget : tmark.get? (i + s - 1) with
        | none => rw [hget] at hres; exact absurd hres (by simp)
        | some b =>
            cases b with
            | true =>
                rw [hget] at hres
                simp only [Option.some_inj, Prod.mk.injEq] at hres
                obtain ⟨rfl, rfl⟩ := hres
                refine ⟨le_refl _, fun hfalse => ?_, fun hle => by omega⟩
                exact absurd hfalse (by simp)
            | false =>
                rw [hget] at hres
                simp only [] at hres
                by_cases hstop : text.length < i + 1 + s
                · rw [if_pos hstop] at hres
                  simp only [Option.some_inj, Prod.mk.injEq] at hres
                  obtain ⟨rfl, rfl⟩ := hres
                  exact ⟨by omega, fun _ => le_refl _, fun hle => by omega⟩
                · rw [if_neg hstop] at hres
                  obtain ⟨h1, _, h3⟩ := ih (i + 1) _ _ i2 m2 hres
                  exact ⟨by omega, fun _ => by omega, fun hle => h3 (by omega)⟩

theorem buildInner_isSome (text : List Nat) (tmark : List Bool)
    (ht : tmark.length = text.length) (s : Nat) (hs : 1 ≤ s) :
    ∀ fuel i h m, 1 ≤ fuel → text.length + 1 ≤ fuel + i → i + s ≤ text.length →
    (buildInner text tmark s fuel i h m).isSome := by
  intro fuel
  induction fuel with
  | zero => intro i h m h1 _ _; omega
  | succ fuel ih =>
      intro i h m _ hfe hle
      rw [buildInner]
      have h0 : ¬ i + s = 0 := by omega
      rw [if_neg h0]
      cases hget : tmark.get? (i + s - 1) with
      | none =>
          rw [List.get?_eq_none] at hget
          omega
      | some b =>
          cases b with
          | true => rfl
          | false =>
              simp only []
              by_cases hstop : text.length < i + 1 + s
              · rw [if_pos hstop]; rfl
              · rw [if_neg hstop]
                exact ih (i + 1) _ _ (by omega) (by omega) (by omega)

theorem buildOuter_isSome (text : List Nat) (tmark : List Bool)
    (ht : tmark.length = text.length) (s : Nat) (hs : 1 ≤ s) :
    ∀ fuel i m, 1 ≤ fuel → text.length + 1 ≤ fuel + i →
    (buildOuter text tmark s fuel i m).isSome := by
  intro fuel
  induction fuel with
  | zero =>
      intro i m h1 hfe
      omega
  | succ fuel ih =>
      intro i m h1 hfe
      have main : ∀ i1, i ≤ i1 → i1 ≤ i + s →
          (tmark.get? (i1 + s - 1) = some true → i < i1) →
          buildOuter text tmark s (fuel + 1) i m =
          (if text.length < i1 + s then some m
           else
            match buildInner text tmark s (text.length + 1) i1 (hashRange text i1 s) m with
            | none => none
            | some (i2, m2) => buildOuter text tmark s fuel i2 m2) →
          (buildOuter text tmark s (fuel + 1) i m).isSome := by
        intro i1 hge hle hmk hunf
        rw [hunf]
        by_cases hb1 : text.length < i1 + s
        · rw [if_pos hb1]; rfl
        · rw [if_neg hb1]
          cases hbi : buildInner text tmark s (text.length + 1) i1 (hashRange text i1 s) m with
          | none =>
              have := buildInner_isSome text tmark ht s hs (text.length + 1) i1
                (hashRange text i1 s) m (by omega) (by omega) (by omega)
              rw [hbi] at this
              exact absurd this (by simp)
          | some p =>
              obtain ⟨i2, m2⟩ := p
              simp only []
              obtain ⟨hle2, himp, hbound⟩ := buildInner_spec text tmark s (text.length + 1) i1
                (hashRange text i1 s) m i2 m2 hbi
              have hadv : i + 1 ≤ i2 := by
                cases hmark : tmark.get? (i1 + s - 1) with
                | none =>
                    rw [List.get?_eq_none] at hmark
                    omega
                | some b =>
                    cases b with
                    | true => have := hmk hmark; omega
                    | false => have := himp hmark; omega
              have hi2le : i2 + s ≤ text.length + 1 := hbound (by omega)
              exact ih i2 m2 (by omega) (by omega)
      by_cases hb : text.length < i + s
      · rw [buildOuter, if_pos hb]; rfl
      · cases hfm : firstMarked tmark i s with
        | none =>
            have := firstMarked_isSome tmark s i (by omega)
            rw [hfm] at this
            exact absurd this (by simp)
        | some jo =>
            cases jo with
            | none =>
                refine main i (le_refl _) (by omega) ?_ (by rw [buildOuter, if_neg hb, hfm])
                intro htrue
                have hfalse := firstMarked_none_spec tmark s i hfm (s - 1) (by omega)
                rw [show i + (s - 1) = i + s - 1 by omega] at hfalse
                rw [htrue] at hfalse
                exact absurd hfalse (by simp)
            | some j =>
                obtain ⟨hj1, hj2, _⟩ := firstMarked_some_spec tmark s i j hfm
                refine main (j + 1) (by omega) (by omega) (fun _ => by omega)
                  (by rw [buildOuter, if_neg hb, hfm])

theorem buildMap_isSome (text : List Nat) (tmark : List Bool)
    (ht : tmark.length = text.length) (s : Nat) (hs : 1 ≤ s) :
    (buildMap text tmark s).isSome :=
  buildOuter_isSome text tmark ht s hs (text.length + 1) 0 [] (by omega) (by omega)

/-! ## The scan as a whole -/

theorem scanPattern_isSome (pattern text : List Nat) (st : St) (s : Nat)
    (hp : st.pmark.length = pattern.length) (ht : st.tmark.length = text.length)
    (hs : 1 ≤ s) : (scanPattern pattern text st s).isSome := by
  rw [scanPattern]
  cases hbm : buildMap text st.tmark s with
  | none =>
      have := buildMap_isSome text st.tmark ht s hs
      rw [hbm] at this
      exact absurd this (by simp)
  | some m =>
      simp only []
      cases hso : scanOuter pattern text st.pmark st.tmark s m
          (pattern.length + 1) 0 [] 0 with
      | fail =>
          exact absurd hso (scanOuter_ne_fail pattern text st.pmark st.tmark hp ht s hs m
            (pattern.length + 1) 0 [] 0 (by omega) (by omega))
      | early k acc => rfl
      | cont i2 acc mx => rfl

theorem scanPattern_spec (pattern text : List Nat) (st : St) (s : Nat)
    (st1 : St) (lmax : Nat)
    (hres : scanPattern pattern text st s = some (st1, lmax)) :
    st1.pmark = st.pmark ∧ st1.tmark = st.tmark ∧ st1.result = st.result ∧
    (∀ c ∈ st1.matchList, CandProp pattern text st.pmark st.tmark s c) ∧
    (2 * s < lmax →
      ∃ pJ tJ, extendLen pattern text st.pmark st.tmark pJ tJ (text.length + 1) 0 =
        some lmax) ∧
    (¬ 2 * s < lmax →
      (lmax = 0 ∨ ∃ c ∈ st1.matchList, c.length = lmax)) := by
  rw [scanPattern] at hres
  cases hbm : buildMap text st.tmark s with
  | none => rw [hbm] at hres; exact absurd hres (by simp)
  | some m =>
      rw [hbm] at hres
      simp only [] at hres
      cases hso : scanOuter pattern text st.pmark st.tmark s m
          (pattern.length + 1) 0 [] 0 with
      | fail => rw [hso] at hres; exact absurd hres (by simp)
      | early k acc =>
          rw [hso] at hres
          simp only [Option.some_inj, Prod.mk.injEq] at hres
          obtain ⟨rfl, rfl⟩ := hres
          obtain ⟨hk, hw, new, hacc, hcand⟩ :=
            (scanOuter_spec pattern text st.pmark st.tmark s m
              (pattern.length + 1) 0 [] 0).1 k acc hso
          refine ⟨rfl, rfl, rfl, ?_, fun _ => hw, fun hcon => absurd hk hcon⟩
          intro c hc
          simp only [] at hc
          rw [hacc] at hc
          simp only [List.nil_append] at hc
          exact hcand c hc
      | cont i2 acc mx =>
          rw [hso] at hres
          simp only [Option.some_inj, Prod.mk.injEq] at hres
          obtain ⟨rfl, rfl⟩ := hres
          obtain ⟨⟨new, hacc, hcand⟩, hm1, hm2, hm3⟩ :=
            (scanOuter_spec pattern text st.pmark st.tmark s m
              (pattern.length + 1) 0 [] 0).2 i2 acc mx hso
          refine ⟨rfl, rfl, rfl, ?_, fun hcon => ?_, fun _ => ?_⟩
          · intro c hc
            rw [hacc] at hc
            simp only [List.nil_append] at hc
            exact hcand c hc
          · exfalso
            have : mx ≤ max 0 (2 * s) := hm2
            simp only [Nat.zero_max] at this
            omega
          · rcases hm3 with heq | hex
            · exact Or.inl heq
            · exact Or.inr hex

/-! ## Lemmas about the acceptance check and span marking -/

theorem checkSpan_true_of_unmarked (pmark tmark : List Bool) (m : Match) :
    ∀ fuel k, 1 ≤ fuel → m.length + 1 ≤ fuel + k →
    (∀ j, k ≤ j → j < m.length →
      tmark.get? (m.text_index + j) = some false ∧
      pmark.get? (m.pattern_index + j) = some false) →
    checkSpan pmark tmark m fuel k = some true := by
  intro fuel
  induction fuel with
  | zero => intro k h1 _ _; omega
  | succ fuel ih =>
      intro k _ hfe hgood
      rw [checkSpan]
      by_cases hk : m.length ≤ k
      · rw [if_pos hk]
      · rw [if_neg hk]
        obtain ⟨hgt, hgp⟩ := hgood k (le_refl _) (by omega)
        rw [hgt, hgp]
        exact ih (k + 1) (by omega) (by omega) (fun j hj1 hj2 => hgood j (by omega) hj2)

theorem checkSpan_spec (pmark tmark : List Bool) (m : Match) :
    ∀ fuel k, checkSpan pmark tmark m fuel k = some true →
    ∀ j, k ≤ j → j < m.length →
      tmark.get? (m.text_index + j) = some false ∧
      pmark.get? (m.pattern_index + j) = some false := by
  intro fuel
  induction fuel with
  | zero =>
      intro k hchk
      rw [checkSpan] at hchk
      exact absurd hchk (by simp)
  | succ fuel ih =>
      intro k hchk j hj1 hj2
      rw [checkSpan] at hchk
      by_cases hk : m.length ≤ k
      · omega
      · rw [if_neg hk] at hchk
        cases hgt : tmark.get? (m.text_index + k) with
        | none => rw [hgt] at hchk; exact absurd hchk (by simp)
        | some b =>
            cases b with
            | true => rw [hgt] at hchk; exact absurd hchk (by simp)
            | false =>
                rw [hgt] at hchk
                simp only [] at hchk
                cases hgp : pmark.get? (m.pattern_index + k) with
                | none => rw [hgp] at hchk; exact absurd hchk (by simp)
                | some b2 =>
                    cases b2 with
                    | true => rw [hgp] at hchk; exact absurd hchk (by simp)
                    | false =>
                        rw [hgp] at hchk
                        rcases Nat.eq_or_lt_of_le hj1 with heq | hlt
                        · subst heq
                          exact ⟨hgt, hgp⟩
                        · exact ih (k + 1) hchk j hlt hj2

theorem checkSpan_isSome (pmark tmark : List Bool) (m : Match)
    (hpb : m.pattern_index + m.length ≤ pmark.length)
    (htb : m.text_index + m.length ≤ tmark.length) :
    ∀ fuel k, 1 ≤ fuel → m.length + 1 ≤ fuel + k →
    (checkSpan pmark tmark m fuel k).isSome := by
  intro fuel
  induction fuel with
  | zero => intro k h1 _; omega
  | succ fuel ih =>
      intro k _ hfe
      rw [checkSpan]
      by_cases hk : m.length ≤ k
      · rw [if_pos hk]; rfl
      · rw [if_neg hk]
        cases hgt : tmark.get? (m.text_index + k) with
        | none => rw [List.get?_eq_none] at hgt; omega
        | some b =>
            cases b with
            | true => rfl
            | false =>
                cases hgp : pmark.get? (m.pattern_index + k) with
                | none => rw [List.get?_eq_none] at hgp; omega
                | some b2 =>
                    cases b2 with
                    | true => rfl
                    | false => exact ih (k + 1) (by omega) (by omega)

theorem setRange_length (mark : List Bool) (start : Nat) :
    ∀ len, (setRange mark start len).length = mark.length := by
  intro len
  induction len with
  | zero => rfl
  | succ len ih =>
      rw [setRange, List.range_succ, List.foldl_append]
      simp only [List.foldl_cons, List.foldl_nil]
      rw [List.length_set]
      exact ih

theorem setRange_succ (mark : List Bool) (start len : Nat) :
    setRange mark start (len + 1) = (setRange mark start len).set (start + len) true := by
  rw [setRange, List.range_succ, List.foldl_append]
  simp only [List.foldl_cons, List.foldl_nil]
  rfl

theorem setRange_get?_out (mark : List Bool) (start : Nat) :
    ∀ len x, (x < start ∨ start + len ≤ x) →
    (setRange mark start len).get? x = mark.get? x := by
  intro len
  induction len with
  | zero => intro x _; rfl
  | succ len ih =>
      intro x hx
      rw [setRange_succ]
      rw [List.get?_eq_getElem?, List.getElem?_set_ne (by omega),
        ← List.get?_eq_getElem?]
      exact ih x (by omega)

theorem setRange_get?_in (mark : List Bool) (start : Nat) :
    ∀ len x, start ≤ x → x < start + len → x < mark.length →
    (setRange mark start len).get? x = some true := by
  intro len
  induction len with
  | zero => intro x h1 h2 _; omega
  | succ len ih =>
      intro x h1 h2 hlen
      rw [setRange_succ]
      by_cases hx : x = start + len
      · subst hx
        rw [List.get?_eq_getElem?]
        rw [List.getElem?_set_self (by rw [setRange_length]; omega)]
      · rw [List.get?_eq_getElem?, List.getElem?_set_ne (by omega),
          ← List.get?_eq_getElem?]
        exact ih x h1 (by omega) hlen

theorem setRange_monotone (mark : List Bool) (start : Nat) :
    ∀ len x, mark.get? x = some true →
    (setRange mark start len).get? x = some true := by
  intro len x hx
  by_cases hin : start ≤ x ∧ x < start + len
  · have hlt : x < mark.length := by
      by_contra hcon
      have hnone : mark.get? x = none := List.get?_eq_none.mpr (by omega)
      rw [hnone] at hx
      exact absurd hx (by simp)
    exact setRange_get?_in mark start len x hin.1 hin.2 hlt
  · rw [setRange_get?_out mark start len x (by omega)]
    exact hx

/-! ## Disjointness from marks -/

theorem disjoint_of_marked_unmarked (mark : List Bool) (p1 l1 p2 l2 : Nat)
    (h1 : ∀ j < l1, mark.get? (p1 + j) = some true)
    (h2 : ∀ j < l2, mark.get? (p2 + j) = some false)
    (hl1 : 1 ≤ l1) (hl2 : 1 ≤ l2) : p1 + l1 ≤ p2 ∨ p2 + l2 ≤ p1 := by
  by_contra hcon
  push_neg at hcon
  obtain ⟨ha, hb⟩ := hcon
  rcases Nat.le_total p1 p2 with hle | hle
  · have hx1 := h1 (p2 - p1) (by omega)
    have hx2 := h2 0 (by omega)
    rw [show p1 + (p2 - p1) = p2 + 0 by omega] at hx1
    rw [hx1] at hx2
    exact absurd hx2 (by simp)
  · have hx1 := h1 0 (by omega)
    have hx2 := h2 (p1 - p2) (by omega)
    rw [show p2 + (p1 - p2) = p1 + 0 by omega] at hx2
    rw [hx1] at hx2
    exact absurd hx2 (by simp)

/-! ## Lemmas about the greedy tiler -/

theorem markGo_monotone : ∀ (ms : List Match) (pmark tmark : List Bool)
    (result : List Match) (pm2 tm2 : List Bool) (res2 : List Match),
    markGo ms pmark tmark result = some (pm2, tm2, res2) →
    pm2.length = pmark.length ∧ tm2.length = tmark.length ∧
    (∀ x, pmark.get? x = some true → pm2.get? x = some true) ∧
    (∀ x, tmark.get? x = some true → tm2.get? x = some true) ∧
    (∃ acc, res2 = result ++ acc) := by
  intro ms
  induction ms with
  | nil =>
      intro pmark tmark result pm2 tm2 res2 hgo
      rw [markGo] at hgo
      simp only [Option.some_inj, Prod.mk.injEq] at hgo
      obtain ⟨rfl, rfl, rfl⟩ := hgo
      exact ⟨rfl, rfl, fun x hx => hx, fun x hx => hx, ⟨[], by simp⟩⟩
  | cons m rest ih =>
      intro pmark tmark result pm2 tm2 res2 hgo
      rw [markGo] at hgo
      cases hchk : checkSpan pmark tmark m (m.length + 1) 0 with
      | none => rw [hchk] at hgo; exact absurd hgo (by simp)
      | some b =>
          cases b with
          | false =>
              rw [hchk] at hgo
              exact ih pmark tmark result pm2 tm2 res2 hgo
          | true =>
              rw [hchk] at hgo
              obtain ⟨h1, h2, h3, h4, acc, hacc⟩ :=
                ih (setRange pmark m.pattern_index m.length)
                  (setRange tmark m.text_index m.length) (result ++ [m]) pm2 tm2 res2 hgo
              refine ⟨by rw [h1, setRange_length], by rw [h2, setRange_length],
                fun x hx => h3 x (setRange_monotone _ _ _ x hx),
                fun x hx => h4 x (setRange_monotone _ _ _ x hx),
                ⟨m :: acc, by rw [hacc, List.append_assoc]; rfl⟩⟩

theorem markGo_preserves (pattern text : List Nat) (L : Nat) (hL : 1 ≤ L) :
    ∀ (ms : List Match) (pmark tmark : List Bool) (result : List Match)
    (pm2 tm2 : List Bool) (res2 : List Match),
    pmark.length = pattern.length → tmark.length = text.length →
    (∀ m ∈ result, MatchOK pattern text L m) →
    result.Pairwise SpanDisjoint →
    (∀ m ∈ result, SpanMarked pmark tmark m) →
    (∀ m ∈ ms, MatchOK pattern text L m) →
    markGo ms pmark tmark result = some (pm2, tm2, res2) →
    pm2.length = pattern.length ∧ tm2.length = text.length ∧
    (∀ m ∈ res2, MatchOK pattern text L m) ∧
    res2.Pairwise SpanDisjoint ∧
    (∀ m ∈ res2, SpanMarked pm2 tm2 m) := by
  intro ms
  induction ms with
  | nil =>
      intro pmark tmark result pm2 tm2 res2 hpl htl hOK hPair hMk _ hgo
      rw [markGo] at hgo
      simp only [Option.some_inj, Prod.mk.injEq] at hgo
      obtain ⟨rfl, rfl, rfl⟩ := hgo
      exact ⟨hpl, htl, hOK, hPair, hMk⟩
  | cons m rest ih =>
      intro pmark tmark result pm2 tm2 res2 hpl htl hOK hPair hMk hms hgo
      rw [markGo] at hgo
      cases hchk : checkSpan pmark tmark m (m.length + 1) 0 with
      | none => rw [hchk] at hgo; exact absurd hgo (by simp)
      | some b =>
          cases b with
          | false =>
              rw [hchk] at hgo
              exact ih pmark tmark result pm2 tm2 res2 hpl htl hOK hPair hMk
                (fun c hc => hms c (List.mem_cons_of_mem m hc)) hgo
          | true =>
              rw [hchk] at hgo
              have hmOK : MatchOK pattern text L m := hms m (List.mem_cons_self m rest)
              have hunm := checkSpan_spec pmark tmark m (m.length + 1) 0 hchk
              refine ih (setRange pmark m.pattern_index m.length)
                (setRange tmark m.text_index m.length) (result ++ [m]) pm2 tm2 res2
                (by rw [setRange_length]; exact hpl)
                (by rw [setRange_length]; exact htl)
                ?_ ?_ ?_ (fun c hc => hms c (List.mem_cons_of_mem m hc)) hgo
              · intro c hc
                rcases List.mem_append.mp hc with hc | hc
                · exact hOK c hc
                · rw [List.mem_singleton.mp hc]
                  exact hmOK
              · rw [List.pairwise_append]
                refine ⟨hPair, List.pairwise_singleton _ _, ?_⟩
                intro a ha b hb
                rw [List.mem_singleton.mp hb]
                obtain ⟨haMkP, haMkT⟩ := hMk a ha
                have haOK := hOK a ha
                constructor
                · exact disjoint_of_marked_unmarked pmark a.pattern_index a.length
                    m.pattern_index m.length haMkP
                    (fun j hj => (hunm j (Nat.zero_le _) hj).2)
                    (le_trans hL haOK.2.2.1) (le_trans hL hmOK.2.2.1)
                · exact disjoint_of_marked_unmarked tmark a.text_index a.length
                    m.text_index m.length haMkT
                    (fun j hj => (hunm j (Nat.zero_le _) hj).1)
                    (le_trans hL haOK.2.2.1) (le_trans hL hmOK.2.2.1)
              · intro c hc
                rcases List.mem_append.mp hc with hc | hc
                · obtain ⟨hcP, hcT⟩ := hMk c hc
                  exact ⟨fun j hj => setRange_monotone _ _ _ _ (hcP j hj),
                    fun j hj => setRange_monotone _ _ _ _ (hcT j hj)⟩
                · rw [List.mem_singleton.mp hc]
                  constructor
                  · intro j hj
                    exact setRange_get?_in pmark m.pattern_index m.length
                      (m.pattern_index + j) (by omega) (by omega)
                      (by rw [hpl]; have := hmOK.1; omega)
                  · intro j hj
                    exact setRange_get?_in tmark m.text_index m.length
                      (m.text_index + j) (by omega) (by omega)
                      (by rw [htl]; have := hmOK.2.1; omega)

theorem markStrings_preserves (pattern text : List Nat) (L : Nat) (hL : 1 ≤ L)
    (st st2 : St)
    (hInv : Inv pattern text L st)
    (hms : ∀ c ∈ st.matchList, MatchOK pattern text L c)
    (hgo : markStrings st = some st2) :
    Inv pattern text L st2 ∧ st2.matchList = [] ∧
    (∃ acc, st2.result = st.result ++ acc) := by
  obtain ⟨hpl, htl, hOK, hPair, hMk⟩ := hInv
  rw [markStrings] at hgo
  cases hmg : markGo (st.matchList.insertionSort (fun a b => b.length ≤ a.length))
      st.pmark st.tmark st.result with
  | none => rw [hmg] at hgo; exact absurd hgo (by simp)
  | some trip =>
      obtain ⟨pm2, tm2, res2⟩ := trip
      rw [hmg] at hgo
      simp only [Option.some_inj] at hgo
      have hmem : ∀ c ∈ st.matchList.insertionSort (fun a b => b.length ≤ a.length),
          MatchOK pattern text L c := by
        intro c hc
        exact hms c ((List.perm_insertionSort _ st.matchList).mem_iff.mp hc)
      obtain ⟨h1, h2, h3, h4, h5⟩ := markGo_preserves pattern text L hL _
        st.pmark st.tmark st.result pm2 tm2 res2 hpl htl hOK hPair hMk hmem hmg
      obtain ⟨_, _, _, _, acc, hacc⟩ := markGo_monotone _ st.pmark st.tmark st.result
        pm2 tm2 res2 hmg
      rw [← hgo]
      exact ⟨⟨h1, h2, h3, h4, h5⟩, rfl, ⟨acc, hacc⟩⟩

/-! ## Candidate facts imply match soundness -/

theorem candProp_matchOK (pattern text : List Nat) (pmark tmark : List Bool)
    (L s : Nat) (hL : 1 ≤ L) (hLs : L ≤ s) (c : Match)
    (hc : CandProp pattern text pmark tmark s c) :
    MatchOK pattern text L c ∧ SpanUnmarked pmark tmark c := by
  obtain ⟨hext, hks, hk2⟩ := hc
  obtain ⟨_, hspec⟩ := extendLen_spec pattern text pmark tmark
    c.pattern_index c.text_index (text.length + 1) 0 c.length hext
  have hpos : 1 ≤ c.length := by omega
  have hbp : c.pattern_index + c.length ≤ pattern.length := by
    have := (hspec (c.length - 1) (Nat.zero_le _) (by omega)).2.1
    omega
  have hbt : c.text_index + c.length ≤ text.length := by
    have := (hspec (c.length - 1) (Nat.zero_le _) (by omega)).1
    omega
  refine ⟨⟨hbp, hbt, le_trans hLs hks, ?_⟩, ?_, ?_⟩
  · intro j hj
    exact ((hspec j (Nat.zero_le _) hj).2.2.1).symm
  · intro j hj
    exact (hspec j (Nat.zero_le _) hj).2.2.2.2
  · intro j hj
    exact (hspec j (Nat.zero_le _) hj).2.2.2.1

/-! ## The driver invariant -/

theorem driver_ok_spec (pattern text : List Nat) (minL L : Nat)
    (hL : 1 ≤ L) (hLm : L ≤ minL) : ∀ fuel s st r,
    L ≤ s → Inv pattern text L st →
    driver pattern text minL fuel s st = .ok r →
    (∀ m ∈ r, MatchOK pattern text L m) ∧ r.Pairwise SpanDisjoint := by
  intro fuel
  induction fuel with
  | zero =>
      intro s st r _ _ hdr
      rw [driver] at hdr
      exact absurd hdr (by simp)
  | succ fuel ih =>
      intro s st r hLs hInv hdr
      rw [driver] at hdr
      cases hsp : scanPattern pattern text st s with
      | none => rw [hsp] at hdr; exact absurd hdr (by simp)
      | some p =>
          obtain ⟨st1, lmax⟩ := p
          rw [hsp] at hdr
          simp only [] at hdr
          obtain ⟨hP, hT, hR, hCand, _, _⟩ :=
            scanPattern_spec pattern text st s st1 lmax hsp
          have hInv1 : Inv pattern text L st1 := by
            obtain ⟨h1, h2, h3, h4, h5⟩ := hInv
            rw [Inv, hP, hT, hR]
            exact ⟨h1, h2, h3, h4, h5⟩
          by_cases hgrow : 2 * s < lmax
          · rw [if_pos hgrow] at hdr
            exact ih lmax st1 r (by omega) hInv1 hdr
          · rw [if_neg hgrow] at hdr
            cases hmk : markStrings st1 with
            | none => rw [hmk] at hdr; exact absurd hdr (by simp)
            | some st2 =>
                rw [hmk] at hdr
                simp only [] at hdr
                have hms : ∀ c ∈ st1.matchList, MatchOK pattern text L c := by
                  intro c hc
                  have := hCand c hc
                  rw [← hP, ← hT] at this
                  exact (candProp_matchOK pattern text st1.pmark st1.tmark L s hL hLs c this).1
                obtain ⟨hInv2, _, _⟩ :=
                  markStrings_preserves pattern text L hL st1 st2 hInv1 hms hmk
                by_cases hh : 2 * minL < s
                · rw [if_pos hh] at hdr
                  exact ih (s / 2) st2 r (by omega) hInv2 hdr
                · rw [if_neg hh] at hdr
                  by_cases hh2 : minL < s
                  · rw [if_pos hh2] at hdr
                    exact ih minL st2 r hLm hInv2 hdr
                  · rw [if_neg hh2] at hdr
                    obtain ⟨_, _, h3, h4, _⟩ := hInv2
                    obtain rfl : st2.result = r := by
                      cases hdr
                      rfl
                    exact ⟨h3, h4⟩

/-! ## Setup facts -/

theorem initSt_inv (pattern text : List Nat) (L : Nat) :
    Inv pattern text L (initSt pattern text) := by
  refine ⟨List.length_replicate _ _, List.length_replicate _ _, ?_, ?_, ?_⟩
  · intro m hm
    exact absurd hm (by simp [initSt])
  · exact List.Pairwise.nil
  · intro m hm
    exact absurd hm (by simp [initSt])

theorem slice_eq_of_pointwise (p t : List Nat) (pI tI len : Nat)
    (hbp : pI + len ≤ p.length) (hbt : tI + len ≤ t.length)
    (heq : ∀ j < len, p.getD (pI + j) 0 = t.getD (tI + j) 0) :
    (p.drop pI).take len = (t.drop tI).take len := by
  apply List.ext_get?
  intro n
  rw [List.get?_eq_getElem?, List.get?_eq_getElem?]
  by_cases hn : n < len
  · rw [List.getElem?_take, if_pos hn, List.getElem?_take, if_pos hn,
      List.getElem?_drop, List.getElem?_drop]
    have h1 : pI + n < p.length := by omega
    have h2 : tI + n < t.length := by omega
    have := heq n hn
    rw [List.getD_eq_getElem?_getD, List.getD_eq_getElem?_getD,
      List.getElem?_eq_getElem h1, List.getElem?_eq_getElem h2] at this
    rw [List.getElem?_eq_getElem h1, List.getElem?_eq_getElem h2]
    simp only [Option.getD_some] at this
    rw [this]
  · rw [List.getElem?_take_eq_none (by omega), List.getElem?_take_eq_none (by omega)]

theorem run_ok_spec (pattern text : List Nat) (s0 minL L : Nat)
    (hL : 1 ≤ L) (hLm : L ≤ minL) (hLs : L ≤ s0) :
    (∀ m ∈ run pattern text s0 minL, MatchOK pattern text L m) ∧
    (run pattern text s0 minL).Pairwise SpanDisjoint := by
  rw [run]
  cases hdr : driver pattern text minL (runFuel text s0 minL) s0 (initSt pattern text) with
  | fail =>
      constructor
      · intro m hm
        exact absurd hm (by simp)
      · exact List.Pairwise.nil
  | fuelOut =>
      constructor
      · intro m hm
        exact absurd hm (by simp)
      · exact List.Pairwise.nil
  | ok r =>
      exact driver_ok_spec pattern text minL L hL hLm _ s0 (initSt pattern text) r hLs
        (initSt_inv pattern text L) hdr

/-! ## Claims C1, C2, C3, C9 -/

/-- C1: for every pattern, text and positive parameters, every `Match` in
the list returned by `run` satisfies exact equality: the `length` bytes of
the pattern starting at `pattern_index` are byte-for-byte equal to the
`length` bytes of the text starting at `text_index`. -/
theorem C1_returned_matches_byte_equal (p t : List Nat) (s0 minL : Nat)
    (hs0 : 1 ≤ s0) (hminL : 1 ≤ minL) :
    ∀ m ∈ run p t s0 minL,
      (p.drop m.pattern_index).take m.length =
        (t.drop m.text_index).take m.length := by
  intro m hm
  obtain ⟨h1, h2, _, h4⟩ := (run_ok_spec p t s0 minL 1 (le_refl _) hminL hs0).1 m hm
  exact slice_eq_of_pointwise p t m.pattern_index m.text_index m.length h1 h2 h4

theorem C1_witness :
    (lowerBytes.drop (⟨0, 3, 3⟩ : Match).pattern_index).take (⟨0, 3, 3⟩ : Match).length =
      (yellowBytes.drop (⟨0, 3, 3⟩ : Match).text_index).take (⟨0, 3, 3⟩ : Match).length :=
  C1_returned_matches_byte_equal lowerBytes yellowBytes 3 2 (by decide) (by decide)
    ⟨0, 3, 3⟩ (by decide)

/-- C2: the matches returned by `run` are pairwise non-overlapping in both
the pattern and the text; moreover `mark_strings` only ever sets mark bits
(marking is monotonic, never unset) and `scan_pattern` leaves the bitmaps
unchanged. -/
theorem C2_returned_matches_non_overlapping (p t : List Nat) (s0 minL : Nat)
    (hs0 : 1 ≤ s0) (hminL : 1 ≤ minL) :
    (run p t s0 minL).Pairwise SpanDisjoint ∧
    (∀ st st2, markStrings st = some st2 →
      (∀ x, st.pmark.get? x = some true → st2.pmark.get? x = some true) ∧
      (∀ x, st.tmark.get? x = some true → st2.tmark.get? x = some true)) ∧
    (∀ st s st1 lmax, scanPattern p t st s = some (st1, lmax) →
      st1.pmark = st.pmark ∧ st1.tmark = st.tmark) := by
  refine ⟨(run_ok_spec p t s0 minL 1 (le_refl _) hminL hs0).2, ?_, ?_⟩
  · intro st st2 hmk
    rw [markStrings] at hmk
    cases hmg : markGo (st.matchList.insertionSort (fun a b => b.length ≤ a.length))
        st.pmark st.tmark st.result with
    | none => rw [hmg] at hmk; exact absurd hmk (by simp)
    | some trip =>
        obtain ⟨pm2, tm2, res2⟩ := trip
        rw [hmg] at hmk
        simp only [Option.some_inj] at hmk
        obtain ⟨_, _, h3, h4, _⟩ :=
          markGo_monotone _ st.pmark st.tmark st.result pm2 tm2 res2 hmg
        rw [← hmk]
        exact ⟨h3, h4⟩
  · intro st s st1 lmax hsp
    obtain ⟨h1, h2, _, _, _, _⟩ := scanPattern_spec p t st s st1 lmax hsp
    exact ⟨h1, h2⟩

theorem C2_witness : (run lowerBytes yellowBytes 3 2).Pairwise SpanDisjoint :=
  (C2_returned_matches_non_overlapping lowerBytes yellowBytes 3 2
    (by decide) (by decide)).1

/-- C3: with positive parameters and `minL ≤ s0`, every returned match
stays inside both sequences and has length at least `minL`; in the
degenerate cases (empty sequence, or `minL` longer than a sequence) the
result is empty. -/
theorem C3_returned_matches_in_bounds (p t : List Nat) (s0 minL : Nat)
    (hs0 : 1 ≤ s0) (hminL : 1 ≤ minL) (hms : minL ≤ s0) :
    (∀ m ∈ run p t s0 minL,
      m.pattern_index + m.length ≤ p.length ∧
      m.text_index + m.length ≤ t.length ∧ minL ≤ m.length) ∧
    ((p = [] ∨ t = [] ∨ p.length < minL ∨ t.length < minL) →
      run p t s0 minL = []) := by
  have hmain := (run_ok_spec p t s0 minL minL hminL (le_refl _) hms).1
  constructor
  · intro m hm
    obtain ⟨h1, h2, h3, _⟩ := hmain m hm
    exact ⟨h1, h2, h3⟩
  · intro hdeg
    cases hrun : run p t s0 minL with
    | nil => rfl
    | cons m rest =>
        exfalso
        have hm : m ∈ run p t s0 minL := by
          rw [hrun]
          exact List.mem_cons_self m rest
        obtain ⟨h1, h2, h3, _⟩ := hmain m hm
        rcases hdeg with h | h | h | h
        · rw [h] at h1
          simp only [List.length_nil] at h1
          omega
        · rw [h] at h2
          simp only [List.length_nil] at h2
          omega
        · omega
        · omega

theorem C3_witness :
    (⟨0, 3, 3⟩ : Match).pattern_index + (⟨0, 3, 3⟩ : Match).length ≤ lowerBytes.length ∧
    (⟨0, 3, 3⟩ : Match).text_index + (⟨0, 3, 3⟩ : Match).length ≤ yellowBytes.length ∧
    2 ≤ (⟨0, 3, 3⟩ : Match).length :=
  (C3_returned_matches_in_bounds lowerBytes yellowBytes 3 2
    (by decide) (by decide) (by decide)).1 ⟨0, 3, 3⟩ (by decide)

/-- C9: `run` on pattern `"lower"`, text `"yellow"`, initial search length
3 and minimum match length 2 returns exactly
`[{pattern_index := 0, text_index := 3, length := 3}]`. -/
theorem C9_simple_match_scenario :
    run lowerBytes yellowBytes 3 2 = [⟨0, 3, 3⟩] := by decide

/-! ## Counting unmarked positions -/

theorem countFalse_set_true_le (l : List Bool) (x : Nat) :
    countFalse (l.set x true) ≤ countFalse l := by
  by_cases hx : x < l.length
  · rw [countFalse, countFalse, List.count_set _ _ _ _ hx,
      if_neg (by decide : ¬((true == false) = true))]
    split <;> omega
  · rw [List.set_eq_of_length_le (by omega)]

theorem countFalse_set_true_eq (l : List Bool) (x : Nat)
    (hx : l.get? x = some false) :
    countFalse (l.set x true) + 1 = countFalse l := by
  have hlt : x < l.length := by
    by_contra hcon
    rw [List.get?_eq_none.mpr (by omega)] at hx
    exact absurd hx (by simp)
  have hget : l[x] = false := by
    rw [List.get?_eq_getElem?, List.getElem?_eq_getElem hlt] at hx
    exact Option.some_inj.mp hx
  have hmem : false ∈ l := by
    rw [← hget]
    exact List.getElem_mem hlt
  have hpos : 0 < List.count false l := List.count_pos_iff.mpr hmem
  rw [countFalse, countFalse, List.count_set _ _ _ _ hlt, hget,
    if_pos (by decide : ((false == false) = true)),
    if_neg (by decide : ¬((true == false) = true))]
  omega

theorem setRange_countFalse_le (mark : List Bool) (start : Nat) :
    ∀ len, countFalse (setRange mark start len) ≤ countFalse mark := by
  intro len
  induction len with
  | zero => exact le_refl _
  | succ len ih =>
      rw [setRange_succ]
      exact le_trans (countFalse_set_true_le _ _) ih

theorem setRange_countFalse_eq (mark : List Bool) (start : Nat) :
    ∀ len, (∀ j < len, mark.get? (start + j) = some false) →
    countFalse (setRange mark start len) + len = countFalse mark := by
  intro len
  induction len with
  | zero => intro _; rfl
  | succ len ih =>
      intro hunm
      rw [setRange_succ]
      have hget : (setRange mark start len).get? (start + len) = some false := by
        rw [setRange_get?_out mark start len (start + len) (by omega)]
        exact hunm len (by omega)
      have h1 := countFalse_set_true_eq _ _ hget
      have h2 := ih (fun j hj => hunm j (by omega))
      omega

/-! ## Success and progress of the greedy tiler -/

theorem markGo_isSome : ∀ (ms : List Match) (pm tm : List Bool) (res : List Match),
    (∀ c ∈ ms, c.pattern_index + c.length ≤ pm.length ∧
      c.text_index + c.length ≤ tm.length) →
    (markGo ms pm tm res).isSome := by
  intro ms
  induction ms with
  | nil => intro pm tm res _; rw [markGo]; rfl
  | cons m rest ih =>
      intro pm tm res hb
      rw [markGo]
      obtain ⟨hbp, hbt⟩ := hb m (List.mem_cons_self m rest)
      cases hchk : checkSpan pm tm m (m.length + 1) 0 with
      | none =>
          have := checkSpan_isSome pm tm m hbp hbt (m.length + 1) 0 (by omega) (by omega)
          rw [hchk] at this
          exact absurd this (by simp)
      | some b =>
          cases b with
          | false => exact ih pm tm res (fun c hc => hb c (List.mem_cons_of_mem m hc))
          | true =>
              refine ih _ _ _ (fun c hc => ?_)
              obtain ⟨h1, h2⟩ := hb c (List.mem_cons_of_mem m hc)
              rw [setRange_length, setRange_length]
              exact ⟨h1, h2⟩

theorem markStrings_isSome (st : St)
    (hb : ∀ c ∈ st.matchList,
      c.pattern_index + c.length ≤ st.pmark.length ∧
      c.text_index + c.length ≤ st.tmark.length) :
    (markStrings st).isSome := by
  rw [markStrings]
  cases hmg : markGo (st.matchList.insertionSort (fun a b => b.length ≤ a.length))
      st.pmark st.tmark st.result with
  | none =>
      have := markGo_isSome (st.matchList.insertionSort (fun a b => b.length ≤ a.length))
        st.pmark st.tmark st.result
        (fun c hc => hb c ((List.perm_insertionSort _ st.matchList).mem_iff.mp hc))
      rw [hmg] at this
      exact absurd this (by simp)
  | some trip =>
      obtain ⟨pm2, tm2, res2⟩ := trip
      rfl

theorem markStrings_lengths (st st2 : St) (h : markStrings st = some st2) :
    st2.pmark.length = st.pmark.length ∧ st2.tmark.length = st.tmark.length ∧
    st2.matchList = [] := by
  rw [markStrings] at h
  cases hmg : markGo (st.matchList.insertionSort (fun a b => b.length ≤ a.length))
      st.pmark st.tmark st.result with
  | none => rw [hmg] at h; exact absurd h (by simp)
  | some trip =>
      obtain ⟨pm2, tm2, res2⟩ := trip
      rw [hmg] at h
      simp only [Option.some_inj] at h
      obtain ⟨h1, h2, _, _, _⟩ := markGo_monotone _ st.pmark st.tmark st.result pm2 tm2 res2 hmg
      rw [← h]
      exact ⟨h1, h2, rfl⟩

theorem markGo_countFalse_le : ∀ (ms : List Match) (pm tm : List Bool)
    (res : List Match) (pm2 tm2 : List Bool) (res2 : List Match),
    markGo ms pm tm res = some (pm2, tm2, res2) →
    countFalse pm2 ≤ countFalse pm ∧ countFalse tm2 ≤ countFalse tm := by
  intro ms
  induction ms with
  | nil =>
      intro pm tm res pm2 tm2 res2 hgo
      rw [markGo] at hgo
      simp only [Option.some_inj, Prod.mk.injEq] at hgo
      obtain ⟨rfl, rfl, rfl⟩ := hgo
      exact ⟨le_refl _, le_refl _⟩
  | cons m rest ih =>
      intro pm tm res pm2 tm2 res2 hgo
      rw [markGo] at hgo
      cases hchk : checkSpan pm tm m (m.length + 1) 0 with
      | none => rw [hchk] at hgo; exact absurd hgo (by simp)
      | some b =>
          cases b with
          | false =>
              rw [hchk] at hgo
              exact ih pm tm res pm2 tm2 res2 hgo
          | true =>
              rw [hchk] at hgo
              obtain ⟨h1, h2⟩ := ih _ _ _ pm2 tm2 res2 hgo
              exact ⟨le_trans h1 (setRange_countFalse_le _ _ _),
                le_trans h2 (setRange_countFalse_le _ _ _)⟩

theorem markGo_first_accept (m0 : Match) (rest : List Match) (pm tm : List Bool)
    (res : List Match) (pm2 tm2 : List Bool) (res2 : List Match)
    (hunmP : ∀ j < m0.length, pm.get? (m0.pattern_index + j) = some false)
    (hunmT : ∀ j < m0.length, tm.get? (m0.text_index + j) = some false)
    (hgo : markGo (m0 :: rest) pm tm res = some (pm2, tm2, res2)) :
    res.length + 1 ≤ res2.length ∧
    countFalse pm2 + m0.length ≤ countFalse pm ∧
    countFalse tm2 + m0.length ≤ countFalse tm := by
  rw [markGo] at hgo
  have hchk : checkSpan pm tm m0 (m0.length + 1) 0 = some true :=
    checkSpan_true_of_unmarked pm tm m0 (m0.length + 1) 0 (by omega) (by omega)
      (fun j _ hj => ⟨hunmT j hj, hunmP j hj⟩)
  rw [hchk] at hgo
  obtain ⟨hcf1, hcf2⟩ := markGo_countFalse_le rest _ _ _ pm2 tm2 res2 hgo
  obtain ⟨_, _, _, _, acc, hacc⟩ := markGo_monotone rest _ _ _ pm2 tm2 res2 hgo
  refine ⟨?_, ?_, ?_⟩
  · rw [hacc]
    simp only [List.length_append, List.length_singleton]
    omega
  · have := setRange_countFalse_eq pm m0.pattern_index m0.length hunmP
    omega
  · have := setRange_countFalse_eq tm m0.text_index m0.length hunmT
    omega

/-! ## Panic freedom of the driver -/

theorem driver_ne_fail (p t : List Nat) (minL : Nat) (hminL : 1 ≤ minL) :
    ∀ fuel s st, 1 ≤ s → st.pmark.length = p.length → st.tmark.length = t.length →
    driver p t minL fuel s st ≠ .fail := by
  intro fuel
  induction fuel with
  | zero =>
      intro s st _ _ _
      rw [driver]
      simp
  | succ fuel ih =>
      intro s st hs hp ht
      rw [driver]
      cases hsp : scanPattern p t st s with
      | none =>
          have := scanPattern_isSome p t st s hp ht hs
          rw [hsp] at this
          exact absurd this (by simp)
      | some pr =>
          obtain ⟨st1, lmax⟩ := pr
          simp only []
          obtain ⟨h1, h2, _, hCand, _, _⟩ := scanPattern_spec p t st s st1 lmax hsp
          by_cases hgrow : 2 * s < lmax
          · rw [if_pos hgrow]
            exact ih lmax st1 (by omega) (by rw [h1]; exact hp) (by rw [h2]; exact ht)
          · rw [if_neg hgrow]
            cases hmk : markStrings st1 with
            | none =>
                have hb : ∀ c ∈ st1.matchList,
                    c.pattern_index + c.length ≤ st1.pmark.length ∧
                    c.text_index + c.length ≤ st1.tmark.length := by
                  intro c hc
                  obtain ⟨hOK, _⟩ := candProp_matchOK p t st.pmark st.tmark s s hs
                    (le_refl s) c (hCand c hc)
                  rw [h1, h2, hp, ht]
                  exact ⟨hOK.1, hOK.2.1⟩
                have := markStrings_isSome st1 hb
                rw [hmk] at this
                exact absurd this (by simp)
            | some st2 =>
                simp only []
                obtain ⟨hl1, hl2, _⟩ := markStrings_lengths st1 st2 hmk
                by_cases hh : 2 * minL < s
                · rw [if_pos hh]
                  exact ih (s / 2) st2 (by omega)
                    (by rw [hl1, h1]; exact hp) (by rw [hl2, h2]; exact ht)
                · rw [if_neg hh]
                  by_cases hh2 : minL < s
                  · rw [if_pos hh2]
                    exact ih minL st2 (by omega)
                      (by rw [hl1, h1]; exact hp) (by rw [hl2, h2]; exact ht)
                  · rw [if_neg hh2]
                    simp

/-! ## Claims C5, C6, C7, C8, C10 -/

/-- C5: when a scan reports `lmax > 2·s` (which happens exactly when a
verified extension early-exited the pass), the driver re-scans at search
length `lmax` without tiling; the result list and both bitmaps are
unchanged by the aborted pass, the reported value is a genuine verified
extension length, and the following scan is independent of the stale
candidate list, which it overwrites. -/
theorem C5_early_exit_rescans_without_tiling (p t : List Nat) (minL fuel s : Nat)
    (st st1 : St) (lmax : Nat)
    (hscan : scanPattern p t st s = some (st1, lmax))
    (hgrow : 2 * s < lmax) :
    driver p t minL (fuel + 1) s st = driver p t minL fuel lmax st1 ∧
    st1.result = st.result ∧ st1.pmark = st.pmark ∧ st1.tmark = st.tmark ∧
    (∃ pJ tJ, extendLen p t st.pmark st.tmark pJ tJ (t.length + 1) 0 = some lmax) ∧
    (∀ ms ms', scanPattern p t { st1 with matchList := ms } lmax =
      scanPattern p t { st1 with matchList := ms' } lmax) := by
  obtain ⟨h1, h2, h3, _, h5, _⟩ := scanPattern_spec p t st s st1 lmax hscan
  refine ⟨?_, h3, h1, h2, h5 hgrow, ?_⟩
  · rw [driver, hscan]
    simp only []
    rw [if_pos hgrow]
  · intro ms ms'
    rfl

theorem C5_witness :
    driver aBytes aBytes 2 6 1 (initSt aBytes aBytes) =
      driver aBytes aBytes 2 5 5 (initSt aBytes aBytes) :=
  (C5_early_exit_rescans_without_tiling aBytes aBytes 2 5 1
    (initSt aBytes aBytes) (initSt aBytes aBytes) 5 (by decide) (by decide)).1

/-- C6 (refuting the claimed invariant): in the genuine run
`run "abcdef" "abcXdef" 3 2`, after the first pass the text bitmap is
`TTTFTTT`; the second pass (search length 2) records text offset 2 in the
hash multimap although position 2 is marked — the recorded window `[2, 4)`
straddles a marked position, because the jump loop only skips past the
first marked token of a window and never re-checks the rest. -/
theorem C6_recorded_window_straddles_mark :
    scanPattern strP strT (initSt strP strT) 3 = some (stC6a, 3) ∧
    markStrings stC6a = some stC6 ∧
    stC6.tmark.get? 2 = some true ∧
    buildMap strT stC6.tmark 2 = some [((hashRange strT 2 2).hash, [2])] ∧
    2 ∈ mapOffsets [((hashRange strT 2 2).hash, [2])] ((hashRange strT 2 2).hash) :=
  ⟨by decide, by decide, by decide, by decide, by decide⟩

/-- C7 (refuting eager rejection): `run` performs no argument validation.
With `minimum_match_length = 0` the first pass scans and tiles normally
(the match `(0,0,1)` is accepted into the result) and only a later pass,
at search length 0, panics on the under-flowing index
`i + search_length - 1`; with `initial_search_length = 0` the very first
scan panics.  In neither case is there an invalid-argument rejection
before scanning work begins. -/
theorem C7_no_eager_validation :
    scanPattern [97] [97] (initSt [97] [97]) 1 = some (stC7a, 1) ∧
    markStrings stC7a = some stC7 ∧
    stC7.result = [⟨0, 0, 1⟩] ∧
    driver [97] [97] 0 5 1 (initSt [97] [97]) = .fail ∧
    driver [97] [97] 2 5 0 (initSt [97] [97]) = .fail :=
  ⟨by decide, by decide, by decide, by decide, by decide⟩

/-- C8: with positive `initial_search_length` and `minimum_match_length`,
no panic branch of `run` is reachable: the driver never returns the
panic outcome, for any number of iterations. -/
theorem C8_no_panic_reachable (p t : List Nat) (s0 minL : Nat)
    (hs0 : 1 ≤ s0) (hminL : 1 ≤ minL) :
    ∀ fuel, driver p t minL fuel s0 (initSt p t) ≠ .fail :=
  fun fuel => driver_ne_fail p t minL hminL fuel s0 (initSt p t) hs0
    (List.length_replicate _ _) (List.length_replicate _ _)

theorem C8_witness :
    driver lowerBytes yellowBytes 2 10 3 (initSt lowerBytes yellowBytes) ≠ .fail :=
  C8_no_panic_reachable lowerBytes yellowBytes 3 2 (by decide) (by decide) 10

/-! ## Closed forms of the rolling hash and the sliding step -/

theorem adlerEq (x y : Adler) (ha : x.a = y.a) (hb : x.b = y.b) : x = y := by
  cases x
  cases y
  simp only [] at ha hb
  rw [ha, hb]

theorem hashRange_succ (l : List Nat) (i s : Nat) :
    hashRange l i (s + 1) = (hashRange l i s).update (l.getD (i + s) 0) := by
  rw [hashRange, hashRange, List.range_succ, List.foldl_append]
  rfl

theorem hashRange_a (l : List Nat) (i : Nat) :
    ∀ s, (hashRange l i s).a = (1 + aSum l i s) % BASE := by
  intro s
  induction s with
  | zero =>
      show (1 : Nat) = (1 + aSum l i 0) % BASE
      simp [aSum, BASE]
  | succ s ih =>
      have hsucc : aSum l i (s + 1) = aSum l i s + l.getD (i + s) 0 :=
        Finset.sum_range_succ (fun j => l.getD (i + j) 0) s
      rw [hashRange_succ, Adler.update]
      simp only []
      rw [ih, Nat.mod_add_mod, hsucc, Nat.add_assoc]

theorem bSum_succ (l : List Nat) (i s : Nat) :
    bSum l i (s + 1) = bSum l i s + aSum l i (s + 1) := by
  have h1 : bSum l i (s + 1)
      = ∑ j ∈ Finset.range (s + 1),
          ((s - j) * l.getD (i + j) 0 + l.getD (i + j) 0) := by
    rw [bSum]
    refine Finset.sum_congr rfl ?_
    intro j hj
    rw [Finset.mem_range] at hj
    have hj2 : s + 1 - j = (s - j) + 1 := by omega
    rw [hj2, Nat.succ_mul]
  have h2 : ∑ j ∈ Finset.range (s + 1), (s - j) * l.getD (i + j) 0 = bSum l i s := by
    rw [Finset.sum_range_succ, bSum]
    simp
  rw [h1, Finset.sum_add_distrib, h2, aSum]

theorem hashRange_b (l : List Nat) (i : Nat) :
    ∀ s, (hashRange l i s).b = (s + bSum l i s) % BASE := by
  intro s
  induction s with
  | zero =>
      show (0 : Nat) = (0 + bSum l i 0) % BASE
      simp [bSum, BASE]
  | succ s ih =>
      have hsucc : aSum l i (s + 1) = aSum l i s + l.getD (i + s) 0 :=
        Finset.sum_range_succ (fun j => l.getD (i + j) 0) s
      have hbs := bSum_succ l i s
      have hB : BASE = 65521 := rfl
      rw [hashRange_succ, Adler.update]
      simp only []
      rw [ih, hashRange_a, hB]
      omega

theorem aSum_shift (l : List Nat) (i n : Nat) :
    aSum l i (n + 1) = l.getD i 0 + aSum l (i + 1) n := by
  rw [aSum, aSum, Finset.sum_range_succ']
  have hterm : ∀ j ∈ Finset.range n,
      l.getD (i + (j + 1)) 0 = l.getD (i + 1 + j) 0 := by
    intro j _
    have h : i + (j + 1) = i + 1 + j := by omega
    rw [h]
  have h0 : l.getD (i + 0) 0 = l.getD i 0 := by rw [Nat.add_zero]
  rw [Finset.sum_congr rfl hterm, h0, Nat.add_comm]

theorem bSum_shift (l : List Nat) (i n : Nat) :
    bSum l i (n + 1) = (n + 1) * l.getD i 0 + bSum l (i + 1) n := by
  rw [bSum, bSum, Finset.sum_range_succ']
  have hterm : ∀ j ∈ Finset.range n,
      (n + 1 - (j + 1)) * l.getD (i + (j + 1)) 0
        = (n - j) * l.getD (i + 1 + j) 0 := by
    intro j _
    have h1 : n + 1 - (j + 1) = n - j := by omega
    have h2 : i + (j + 1) = i + 1 + j := by omega
    rw [h1, h2]
  have h0 : (n + 1 - 0) * l.getD (i + 0) 0 = (n + 1) * l.getD i 0 := by
    simp
  rw [Finset.sum_congr rfl hterm, h0, Nat.add_comm]

theorem adler_roll (l : List Nat) (i s : Nat) (hs : 1 ≤ s)
    (hbyte : l.getD i 0 < BASE) :
    ((hashRange l i s).remove s (l.getD i 0)).update (l.getD (i + s) 0)
      = hashRange l (i + 1) s := by
  obtain ⟨n, rfl⟩ : ∃ n, s = n + 1 := ⟨s - 1, by omega⟩
  have hrem : (hashRange l i (n + 1)).remove (n + 1) (l.getD i 0)
      = hashRange l (i + 1) n := by
    have hAs := aSum_shift l i n
    have hBs := bSum_shift l i n
    have hB : BASE = 65521 := rfl
    apply adlerEq
    · rw [Adler.remove]
      simp only []
      rw [hashRange_a, hashRange_a, hB]
      rw [hB] at hbyte
      omega
    · rw [Adler.remove]
      simp only []
      rw [hashRange_b, hashRange_b, hBs, hB]
      have hqr : 65521 * ((n + 1) / 65521) + (n + 1) % 65521 = n + 1 :=
        Nat.div_add_mod _ _
      have hsub : (65521 - (n + 1) % 65521) * l.getD i 0
          = 65521 * l.getD i 0 - ((n + 1) % 65521) * l.getD i 0 :=
        Nat.sub_mul _ _ _
      have hv : (n + 1) * l.getD i 0
          = 65521 * ((n + 1) / 65521 * l.getD i 0)
            + ((n + 1) % 65521) * l.getD i 0 := by
        conv_lhs => rw [← hqr]
        ring
      have hu : ((n + 1) % 65521) * l.getD i 0 ≤ 65521 * l.getD i 0 :=
        Nat.mul_le_mul_right _ (Nat.le_of_lt (Nat.mod_lt _ (by omega)))
      omega
  rw [hrem, show i + (n + 1) = (i + 1) + n by omega, ← hashRange_succ]

theorem hashRange_congr (t p : List Nat) (tI pI : Nat) :
    ∀ s, (∀ j < s, t.getD (tI + j) 0 = p.getD (pI + j) 0) →
    hashRange t tI s = hashRange p pI s := by
  intro s
  induction s with
  | zero => intro _; rfl
  | succ s ih =>
      intro heq
      rw [hashRange_succ, hashRange_succ, ih (fun j hj => heq j (by omega)),
        heq s (by omega)]

/-! ## Membership lemmas for the hash multimap -/

theorem mapFind_insert_self : ∀ (m : HMap) (k v : Nat),
    ∃ vs, mapFind (mapInsert m k v) k = some vs ∧ v ∈ vs := by
  intro m
  induction m with
  | nil =>
      intro k v
      exact ⟨[v], by rw [mapInsert, mapFind, if_pos rfl], by simp⟩
  | cons kv rest ih =>
      intro k v
      obtain ⟨k0, vs⟩ := kv
      rw [mapInsert]
      by_cases hk : k0 = k
      · rw [if_pos hk, mapFind, if_pos rfl]
        exact ⟨vs ++ [v], rfl, by simp⟩
      · rw [if_neg hk, mapFind, if_neg hk]
        exact ih k v

theorem mapOffsets_insert_self (m : HMap) (k v : Nat) :
    v ∈ mapOffsets (mapInsert m k v) k := by
  obtain ⟨vs, hfind, hmem⟩ := mapFind_insert_self m k v
  rw [mapOffsets, hfind]
  exact hmem

theorem mapOffsets_insert_mono : ∀ (m : HMap) (k v kq w : Nat),
    w ∈ mapOffsets m kq → w ∈ mapOffsets (mapInsert m k v) kq := by
  intro m
  induction m with
  | nil =>
      intro k v kq w hw
      rw [mapOffsets, mapFind] at hw
      exact absurd hw (by simp)
  | cons kv rest ih =>
      intro k v kq w hw
      obtain ⟨k0, vs⟩ := kv
      rw [mapOffsets, mapFind] at hw
      rw [mapInsert]
      by_cases h0 : k0 = k
      · rw [if_pos h0]
        rw [mapOffsets, mapFind]
        by_cases h1 : k = kq
        · rw [if_pos h1]
          rw [if_pos (h0.trans h1)] at hw
          simp only [Option.getD_some] at hw ⊢
          exact List.mem_append_left _ hw
        · rw [if_neg h1]
          rw [if_neg (fun hcon => h1 (h0.symm.trans hcon))] at hw
          exact hw
      · rw [if_neg h0]
        rw [mapOffsets, mapFind]
        by_cases h1 : k0 = kq
        · rw [if_pos h1]
          rw [if_pos h1] at hw
          exact hw
        · rw [if_neg h1]
          rw [if_neg h1] at hw
          exact ih k v kq w hw

/-! ## Coverage of the text walk: every fully unmarked window start is
recorded in the hash multimap -/

theorem buildInner_map_mono (text : List Nat) (tmark : List Bool) (s : Nat) :
    ∀ fuel i h m i2 m2, buildInner text tmark s fuel i h m = some (i2, m2) →
    ∀ k w, w ∈ mapOffsets m k → w ∈ mapOffsets m2 k := by
  intro fuel
  induction fuel with
  | zero =>
      intro i h m i2 m2 hres
      rw [buildInner] at hres
      exact absurd hres (by simp)
  | succ fuel ih =>
      intro i h m i2 m2 hres
      rw [buildInner] at hres
      by_cases h0 : i + s = 0
      · rw [if_pos h0] at hres
        exact absurd hres (by simp)
      · rw [if_neg h0] at hres
        cases hget : tmark.get? (i + s - 1) with
        | none => rw [hget] at hres; exact absurd hres (by simp)
        | some b =>
            cases b with
            | true =>
                rw [hget] at hres
                simp only [] at hres
                obtain ⟨rfl, rfl⟩ : i = i2 ∧ m = m2 := by
                  injection hres with h1
                  injection h1 with ha hb
                  exact ⟨ha, hb⟩
                exact fun k w hw => hw
            | false =>
                rw [hget] at hres
                simp only [] at hres
                by_cases hstop : text.length < i + 1 + s
                · rw [if_pos hstop] at hres
                  obtain ⟨rfl, rfl⟩ : i + 1 = i2 ∧ mapInsert m h.hash i = m2 := by
                    injection hres with h1
                    injection h1 with ha hb
                    exact ⟨ha, hb⟩
                  exact fun k w hw => mapOffsets_insert_mono m _ _ _ _ hw
                · rw [if_neg hstop] at hres
                  intro k w hw
                  exact ih _ _ _ _ _ hres k w (mapOffsets_insert_mono m _ _ _ _ hw)

theorem buildInner_cover (text : List Nat) (tmark : List Bool) (s : Nat)
    (hs : 1 ≤ s) (hby : ∀ j, text.getD j 0 < BASE)
    (tS : Nat) (hlen : tS + s ≤ text.length)
    (htw : ∀ j < s, tmark.get? (tS + j) = some false) :
    ∀ fuel i m i2 m2, i ≤ tS →
    buildInner text tmark s fuel i (hashRange text i s) m = some (i2, m2) →
    tS ∈ mapOffsets m2 ((hashRange text tS s).hash) ∨
      (i2 ≤ tS ∧ tmark.get? (i2 + s - 1) = some true) := by
  intro fuel
  induction fuel with
  | zero =>
      intro i m i2 m2 _ hres
      rw [buildInner] at hres
      exact absurd hres (by simp)
  | succ fuel ih =>
      intro i m i2 m2 hile hres
      rw [buildInner] at hres
      have h0 : ¬ i + s = 0 := by omega
      rw [if_neg h0] at hres
      cases hget : tmark.get? (i + s - 1) with
      | none => rw [hget] at hres; exact absurd hres (by simp)
      | some b =>
          cases b with
          | true =>
              rw [hget] at hres
              simp only [] at hres
              obtain ⟨rfl, rfl⟩ : i = i2 ∧ m = m2 := by
                injection hres with h1
                injection h1 with ha hb
                exact ⟨ha, hb⟩
              exact Or.inr ⟨hile, hget⟩
          | false =>
              rw [hget] at hres
              simp only [] at hres
              by_cases hstop : text.length < i + 1 + s
              · rw [if_pos hstop] at hres
                obtain ⟨rfl, rfl⟩ :
                    i + 1 = i2 ∧ mapInsert m (hashRange text i s).hash i = m2 := by
                  injection hres with h1
                  injection h1 with ha hb
                  exact ⟨ha, hb⟩
                have hieq : i = tS := by omega
                subst hieq
                exact Or.inl (mapOffsets_insert_self m _ i)
              · rw [if_neg hstop] at hres
                rw [adler_roll text i s hs (hby i)] at hres
                by_cases hieq : i = tS
                · subst hieq
                  exact Or.inl (buildInner_map_mono text tmark s fuel _ _ _ _ _ hres
                    _ i (mapOffsets_insert_self m _ i))
                · exact ih (i + 1) _ i2 m2 (by omega) hres

theorem buildOuter_map_mono (text : List Nat) (tmark : List Bool) (s : Nat) :
    ∀ fuel i m m2, buildOuter text tmark s fuel i m = some m2 →
    ∀ k w, w ∈ mapOffsets m k → w ∈ mapOffsets m2 k := by
  intro fuel
  induction fuel with
  | zero =>
      intro i m m2 hres
      rw [buildOuter] at hres
      exact absurd hres (by simp)
  | succ fuel ih =>
      intro i m m2 hres
      rw [buildOuter] at hres
      by_cases hex : text.length < i + s
      · rw [if_pos hex] at hres
        obtain rfl : m = m2 := by injection hres
        exact fun k w hw => hw
      · rw [if_neg hex] at hres
        cases hfm : firstMarked tmark i s with
        | none => rw [hfm] at hres; exact absurd hres (by simp)
        | some jo =>
            rw [hfm] at hres
            simp only [] at hres
            have main : ∀ i1, (if text.length < i1 + s then some m
                else match buildInner text tmark s (text.length + 1) i1
                    (hashRange text i1 s) m with
                  | none => none
                  | some (i2, m2) => buildOuter text tmark s fuel i2 m2) = some m2 →
                ∀ k w, w ∈ mapOffsets m k → w ∈ mapOffsets m2 k := by
              intro i1 hres2
              by_cases hex2 : text.length < i1 + s
              · rw [if_pos hex2] at hres2
                obtain rfl : m = m2 := by injection hres2
                exact fun k w hw => hw
              · rw [if_neg hex2] at hres2
                cases hbi : buildInner text tmark s (text.length + 1) i1
                    (hashRange text i1 s) m with
                | none => rw [hbi] at hres2; exact absurd hres2 (by simp)
                | some pr =>
                    obtain ⟨ib, mb⟩ := pr
                    rw [hbi] at hres2
                    simp only [] at hres2
                    intro k w hw
                    exact ih ib mb m2 hres2 k w
                      (buildInner_map_mono text tmark s _ _ _ _ _ _ hbi k w hw)
            cases jo with
            | none => exact main i hres
            | some j => exact main (j + 1) hres

theorem buildOuter_cover (text : List Nat) (tmark : List Bool)
    (ht : tmark.length = text.length) (s : Nat)
    (hs : 1 ≤ s) (hby : ∀ j, text.getD j 0 < BASE)
    (tS : Nat) (hlen : tS + s ≤ text.length)
    (htw : ∀ j < s, tmark.get? (tS + j) = some false) :
    ∀ fuel i m m2, i ≤ tS →
    buildOuter text tmark s fuel i m = some m2 →
    tS ∈ mapOffsets m2 ((hashRange text tS s).hash) := by
  intro fuel
  induction fuel with
  | zero =>
      intro i m m2 _ hres
      rw [buildOuter] at hres
      exact absurd hres (by simp)
  | succ fuel ih =>
      intro i m m2 hile hres
      rw [buildOuter] at hres
      have hex : ¬ text.length < i + s := by omega
      rw [if_neg hex] at hres
      cases hfm : firstMarked tmark i s with
      | none => rw [hfm] at hres; exact absurd hres (by simp)
      | some jo =>
          rw [hfm] at hres
          simp only [] at hres
          have main : ∀ i1, i1 ≤ tS → i ≤ i1 →
              (tmark.get? (i1 + s - 1) = some false ∨ i + 1 ≤ i1) →
              (if text.length < i1 + s then some m
                else match buildInner text tmark s (text.length + 1) i1
                    (hashRange text i1 s) m with
                  | none => none
                  | some (i2, m2) => buildOuter text tmark s fuel i2 m2) = some m2 →
              tS ∈ mapOffsets m2 ((hashRange text tS s).hash) := by
            intro i1 hi1 hii1 hprog hres2
            have hex2 : ¬ text.length < i1 + s := by omega
            rw [if_neg hex2] at hres2
            cases hbi : buildInner text tmark s (text.length + 1) i1
                (hashRange text i1 s) m with
            | none => rw [hbi] at hres2; exact absurd hres2 (by simp)
            | some pr =>
                obtain ⟨ib, mb⟩ := pr
                rw [hbi] at hres2
                simp only [] at hres2
                rcases buildInner_cover text tmark s hs hby tS hlen htw
                    (text.length + 1) i1 m ib mb hi1 hbi with hin | ⟨hib, _⟩
                · exact buildOuter_map_mono text tmark s fuel ib mb m2 hres2 _ tS hin
                · have hadv : i + 1 ≤ ib := by
                    obtain ⟨hle1, hstep, _⟩ :=
                      buildInner_spec text tmark s (text.length + 1) i1
                        (hashRange text i1 s) m ib mb hbi
                    rcases hprog with hfalse | hstrict
                    · have := hstep hfalse
                      omega
                    · omega
                  exact ih ib mb m2 hib hres2
          cases hjo : jo with
          | none =>
              rw [hjo] at hres
              have hfalse := firstMarked_none_spec tmark s i
                (by rw [← hjo]; exact hfm) (s - 1) (by omega)
              rw [show i + (s - 1) = i + s - 1 from by omega] at hfalse
              exact main i hile (le_refl i) (Or.inl hfalse) hres
          | some j =>
              rw [hjo] at hres
              have hj := firstMarked_some_spec tmark s i j (by rw [← hjo]; exact hfm)
              have hjlt : j < tS := by
                by_contra hcon
                have hts : tS ≤ j := by omega
                have := htw (j - tS) (by omega)
                rw [show tS + (j - tS) = j from by omega] at this
                rw [hj.2.2] at this
                exact absurd this (by simp)
              exact main (j + 1) (by omega) (by omega) (Or.inr (by omega)) hres

theorem buildMap_cover (text : List Nat) (tmark : List Bool)
    (ht : tmark.length = text.length) (s : Nat)
    (hs : 1 ≤ s) (hby : ∀ j, text.getD j 0 < BASE)
    (tS : Nat) (hlen : tS + s ≤ text.length)
    (htw : ∀ j < s, tmark.get? (tS + j) = some false)
    (m2 : HMap) (hres : buildMap text tmark s = some m2) :
    tS ∈ mapOffsets m2 ((hashRange text tS s).hash) :=
  buildOuter_cover text tmark ht s hs hby tS hlen htw
    (text.length + 1) 0 [] m2 (Nat.zero_le _) hres

/-! ## Coverage of the pattern walk: a recorded matching window start is
probed, so the pass reports at least the verified extension length -/

theorem scanInner_cover (pattern text : List Nat) (pmark tmark : List Bool)
    (hp : pmark.length = pattern.length) (ht : tmark.length = text.length)
    (s : Nat) (hs : 1 ≤ s) (hbyP : ∀ j, pattern.getD j 0 < BASE)
    (m : HMap) (pS tS kS : Nat)
    (hplen : pS + s ≤ pattern.length)
    (hmem : tS ∈ mapOffsets m ((hashRange pattern pS s).hash))
    (hext : extendLen pattern text pmark tmark pS tS (text.length + 1) 0 = some kS)
    (hkS : s ≤ kS) :
    ∀ fuel i acc mx, i ≤ pS → pattern.length + 1 ≤ fuel + i →
    (∃ k acc', scanInner pattern text pmark tmark s m fuel i
        (hashRange pattern i s) acc mx = .early k acc' ∧ 2 * s < k) ∨
    (∃ i2 acc' mx', scanInner pattern text pmark tmark s m fuel i
        (hashRange pattern i s) acc mx = .cont i2 acc' mx' ∧
      (kS ≤ mx' ∨ (i2 ≤ pS ∧ pmark.get? (i2 + s - 1) = some true))) := by
  intro fuel
  induction fuel with
  | zero =>
      intro i acc mx hile hfe
      omega
  | succ fuel ih =>
      intro i acc mx hile hfe
      rw [scanInner]
      have h0 : ¬ i + s = 0 := by omega
      rw [if_neg h0]
      cases hget : pmark.get? (i + s - 1) with
      | none =>
          rw [List.get?_eq_none] at hget
          omega
      | some b =>
          cases b with
          | true =>
              simp only []
              exact Or.inr ⟨i, acc, mx, rfl, Or.inr ⟨hile, hget⟩⟩
          | false =>
              simp only []
              by_cases hieq : i = pS
              · subst hieq
                cases hfind : mapFind m (hashRange pattern i s).hash with
                | none =>
                    exfalso
                    rw [mapOffsets, hfind] at hmem
                    exact absurd hmem (by simp)
                | some ts =>
                    have htsmem : tS ∈ ts := by
                      rw [mapOffsets, hfind] at hmem
                      exact hmem
                    simp only []
                    rcases probeList_cover pattern text pmark tmark hp ht s i tS kS
                        hext hkS ts acc mx htsmem with
                      ⟨k, acc', hpr, hk⟩ | ⟨acc0, mx0, hpr, hmx0⟩
                    · rw [hpr]
                      simp only []
                      exact Or.inl ⟨k, acc', rfl, hk⟩
                    · rw [hpr]
                      simp only []
                      by_cases hstop : pattern.length < i + 1 + s
                      · rw [if_pos hstop]
                        exact Or.inr ⟨i + 1, acc0, mx0, rfl, Or.inl hmx0⟩
                      · rw [if_neg hstop]
                        rw [adler_roll pattern i s hs (hbyP i)]
                        cases hres : scanInner pattern text pmark tmark s m fuel
                            (i + 1) (hashRange pattern (i + 1) s) acc0 mx0 with
                        | fail =>
                            exact absurd hres (scanInner_ne_fail pattern text pmark
                              tmark hp ht s hs m fuel (i + 1) _ acc0 mx0
                              (by omega) (by omega) (by omega))
                        | early k acc' =>
                            obtain ⟨hk, _, _⟩ := (scanInner_spec pattern text pmark
                              tmark s m fuel (i + 1) _ acc0 mx0).1 k acc' hres
                            exact Or.inl ⟨k, acc', rfl, hk⟩
                        | cont i2 acc' mx' =>
                            obtain ⟨_, _, _, hmx, _, _⟩ := (scanInner_spec pattern
                              text pmark tmark s m fuel (i + 1) _ acc0 mx0).2
                              i2 acc' mx' hres
                            exact Or.inr ⟨i2, acc', mx', rfl, Or.inl (by omega)⟩
              · have hilt : i < pS := lt_of_le_of_ne hile hieq
                cases hpr : (match mapFind m (hashRange pattern i s).hash with
                    | none => ProbeRes.done acc mx
                    | some ts => probeList pattern text pmark tmark s i ts acc mx) with
                | fail =>
                    exact absurd hpr (probeStep_ne_fail pattern text pmark tmark
                      hp ht s m _ i acc mx)
                | early k acc' =>
                    obtain ⟨hk, _, _⟩ := (probeStep_spec pattern text pmark tmark
                      s m _ i acc mx).1 k acc' hpr
                    simp only []
                    exact Or.inl ⟨k, acc', rfl, hk⟩
                | done acc0 mx0 =>
                    simp only []
                    have hstop : ¬ pattern.length < i + 1 + s := by omega
                    rw [if_neg hstop]
                    rw [adler_roll pattern i s hs (hbyP i)]
                    exact ih (i + 1) acc0 mx0 (by omega) (by omega)

theorem scanOuter_cover (pattern text : List Nat) (pmark tmark : List Bool)
    (hp : pmark.length = pattern.length) (ht : tmark.length = text.length)
    (s : Nat) (hs : 1 ≤ s) (hbyP : ∀ j, pattern.getD j 0 < BASE)
    (m : HMap) (pS tS kS : Nat)
    (hplen : pS + s ≤ pattern.length)
    (hpw : ∀ j < s, pmark.get? (pS + j) = some false)
    (hmem : tS ∈ mapOffsets m ((hashRange pattern pS s).hash))
    (hext : extendLen pattern text pmark tmark pS tS (text.length + 1) 0 = some kS)
    (hkS : s ≤ kS) :
    ∀ fuel i acc mx, i ≤ pS → pattern.length + 1 ≤ fuel + i →
    (∃ k acc', scanOuter pattern text pmark tmark s m fuel i acc mx = .early k acc' ∧
      2 * s < k) ∨
    (∃ i2 acc' mx', scanOuter pattern text pmark tmark s m fuel i acc mx =
      .cont i2 acc' mx' ∧ kS ≤ mx') := by
  intro fuel
  induction fuel with
  | zero =>
      intro i acc mx hile hfe
      omega
  | succ fuel ih =>
      intro i acc mx hile hfe
      have hb : ¬ pattern.length < i + s := by omega
      have main : ∀ i1, i ≤ i1 → i1 ≤ pS →
          (pmark.get? (i1 + s - 1) = some true → i < i1) →
          scanOuter pattern text pmark tmark s m (fuel + 1) i acc mx =
          (if pattern.length < i1 + s then InnerRes.cont i1 acc mx
           else
            match scanInner pattern text pmark tmark s m (pattern.length + 1) i1
                (hashRange pattern i1 s) acc mx with
            | .fail => InnerRes.fail
            | .early k acc' => InnerRes.early k acc'
            | .cont i2 acc' mx' =>
                scanOuter pattern text pmark tmark s m fuel i2 acc' mx') →
          (∃ k acc', scanOuter pattern text pmark tmark s m (fuel + 1) i acc mx =
            .early k acc' ∧ 2 * s < k) ∨
          (∃ i2 acc' mx', scanOuter pattern text pmark tmark s m (fuel + 1) i acc mx =
            .cont i2 acc' mx' ∧ kS ≤ mx') := by
        intro i1 hge hle hmk hunf
        rw [hunf]
        have hb1 : ¬ pattern.length < i1 + s := by omega
        rw [if_neg hb1]
        rcases scanInner_cover pattern text pmark tmark hp ht s hs hbyP m pS tS kS
            hplen hmem hext hkS (pattern.length + 1) i1 acc mx hle (by omega) with
          ⟨k, acc', hsi, hk⟩ | ⟨i2, acc2, mx2, hsi, hdisj⟩
        · rw [hsi]
          exact Or.inl ⟨k, acc', rfl, hk⟩
        · rw [hsi]
          simp only []
          have hadv : i + 1 ≤ i2 := by
            obtain ⟨hle2, himp, _, _, _, _⟩ :=
              (scanInner_spec pattern text pmark tmark s m (pattern.length + 1) i1
                (hashRange pattern i1 s) acc mx).2 i2 acc2 mx2 hsi
            cases hmark : pmark.get? (i1 + s - 1) with
            | none =>
                rw [List.get?_eq_none] at hmark
                omega
            | some b =>
                cases b with
                | true => have := hmk hmark; omega
                | false => have := himp hmark; omega
          have hi2le : i2 + s ≤ pattern.length + 1 :=
            scanInner_cont_le pattern text pmark tmark s m (pattern.length + 1) i1
              (hashRange pattern i1 s) acc mx i2 acc2 mx2 (by omega) hsi
          rcases hdisj with hkmx | ⟨hi2pS, hmark2⟩
          · cases hres : scanOuter pattern text pmark tmark s m fuel i2 acc2 mx2 with
            | fail =>
                exact absurd hres (scanOuter_ne_fail pattern text pmark tmark hp ht
                  s hs m fuel i2 acc2 mx2 (by omega) (by omega))
            | early k acc' =>
                obtain ⟨hk, _, _⟩ := (scanOuter_spec pattern text pmark tmark s m
                  fuel i2 acc2 mx2).1 k acc' hres
                exact Or.inl ⟨k, acc', rfl, hk⟩
            | cont i3 acc3 mx3 =>
                obtain ⟨_, hmx, _, _⟩ := (scanOuter_spec pattern text pmark tmark s m
                  fuel i2 acc2 mx2).2 i3 acc3 mx3 hres
                exact Or.inr ⟨i3, acc3, mx3, rfl, by omega⟩
          · exact ih i2 acc2 mx2 hi2pS (by omega)
      cases hfm : firstMarked pmark i s with
      | none =>
          have := firstMarked_isSome pmark s i (by omega)
          rw [hfm] at this
          exact absurd this (by simp)
      | some jo =>
          cases jo with
          | none =>
              refine main i (le_refl _) hile ?_ (by rw [scanOuter, if_neg hb, hfm])
              intro htrue
              have hfalse := firstMarked_none_spec pmark s i hfm (s - 1) (by omega)
              rw [show i + (s - 1) = i + s - 1 by omega] at hfalse
              rw [htrue] at hfalse
              exact absurd hfalse (by simp)
          | some j =>
              obtain ⟨hj1, hj2, hj3⟩ := firstMarked_some_spec pmark s i j hfm
              have hjlt : j < pS := by
                by_contra hcon
                have := hpw (j - pS) (by omega)
                rw [show pS + (j - pS) = j from by omega] at this
                rw [hj3] at this
                exact absurd this (by simp)
              exact main (j + 1) (by omega) (by omega) (fun _ => by omega)
                (by rw [scanOuter, if_neg hb, hfm])

/-- A successful positive-length verified extension at offsets `(pJ, tJ)`
is an unmarked common window of its own length. -/
theorem goodPair_of_extend (pattern text : List Nat) (pmark tmark : List Bool)
    (pJ tJ k : Nat) (hk : 1 ≤ k)
    (hext : extendLen pattern text pmark tmark pJ tJ (text.length + 1) 0 = some k) :
    GoodPair pattern text pmark tmark k pJ tJ := by
  obtain ⟨_, hall⟩ :=
    extendLen_spec pattern text pmark tmark pJ tJ (text.length + 1) 0 k hext
  refine ⟨?_, ?_, ?_⟩
  · have := hall (k - 1) (by omega) (by omega)
    omega
  · have := hall (k - 1) (by omega) (by omega)
    omega
  · intro j hj
    obtain ⟨h1, h2, h3, h4, h5⟩ := hall j (by omega) hj
    exact ⟨h3, h4, h5⟩

/-- Coverage of a whole scan: when an unmarked common window of width `s`
exists, the scan reports `lmax ≥ s` (by probing the recorded window, or by
early-exiting with an even longer extension). -/
theorem scanPattern_cover (pattern text : List Nat) (st : St) (s : Nat)
    (hp : st.pmark.length = pattern.length) (ht : st.tmark.length = text.length)
    (hs : 1 ≤ s)
    (hbyP : ∀ j, pattern.getD j 0 < BASE) (hbyT : ∀ j, text.getD j 0 < BASE)
    (pS tS : Nat) (hgp : GoodPair pattern text st.pmark st.tmark s pS tS)
    (st1 : St) (lmax : Nat)
    (hres : scanPattern pattern text st s = some (st1, lmax)) :
    s ≤ lmax := by
  obtain ⟨hgp1, hgp2, hgp3⟩ := hgp
  rw [scanPattern] at hres
  cases hbm : buildMap text st.tmark s with
  | none => rw [hbm] at hres; exact absurd hres (by simp)
  | some m =>
      rw [hbm] at hres
      simp only [] at hres
      have hmemT : tS ∈ mapOffsets m ((hashRange text tS s).hash) :=
        buildMap_cover text st.tmark ht s hs hbyT tS hgp2
          (fun j hj => (hgp3 j hj).2.1) m hbm
      have hcongr : hashRange text tS s = hashRange pattern pS s :=
        hashRange_congr text pattern tS pS s (fun j hj => (hgp3 j hj).1)
      rw [hcongr] at hmemT
      have hextS : ∃ kS, extendLen pattern text st.pmark st.tmark pS tS
          (text.length + 1) 0 = some kS := by
        have := extendLen_isSome pattern text st.pmark st.tmark hp ht pS tS
          (text.length + 1) 0 (by omega) (by omega)
        cases hx : extendLen pattern text st.pmark st.tmark pS tS
            (text.length + 1) 0 with
        | none => rw [hx] at this; exact absurd this (by simp)
        | some kS => exact ⟨kS, rfl⟩
      obtain ⟨kS, hextSv⟩ := hextS
      have hkS : s ≤ kS :=
        extendLen_ge_of_good pattern text st.pmark st.tmark pS tS s kS
          (fun j hj => ⟨by omega, by omega, (hgp3 j hj).1, (hgp3 j hj).2.1,
            (hgp3 j hj).2.2⟩)
          (text.length + 1) 0 (Nat.zero_le s) hextSv
      rcases scanOuter_cover pattern text st.pmark st.tmark hp ht s hs hbyP m
          pS tS kS hgp1 (fun j hj => (hgp3 j hj).2.2) hmemT hextSv hkS
          (pattern.length + 1) 0 [] 0 (Nat.zero_le pS) (by omega) with
        ⟨k, acc', hso, hk⟩ | ⟨i2, acc', mx', hso, hmx⟩
      · rw [hso] at hres
        simp only [Option.some_inj, Prod.mk.injEq] at hres
        obtain ⟨-, rfl⟩ := hres
        omega
      · rw [hso] at hres
        simp only [Option.some_inj, Prod.mk.injEq] at hres
        obtain ⟨-, rfl⟩ := hres
        omega

/-- Workhorse for the tiling-progress property: after a scan that did not
early-exit, every candidate has unmarked, in-bounds spans of length at
least `s`; a non-empty candidate list therefore tiles successfully,
appending a match and marking at least `s` fresh positions per sequence. -/
theorem scan_tile_progress (p t : List Nat) (s : Nat) (st st1 : St) (lmax : Nat)
    (hs : 1 ≤ s)
    (hp : st.pmark.length = p.length) (ht : st.tmark.length = t.length)
    (hscan : scanPattern p t st s = some (st1, lmax))
    (hnoexit : ¬ 2 * s < lmax) :
    (∀ c ∈ st1.matchList, SpanUnmarked st1.pmark st1.tmark c ∧ s ≤ c.length ∧
      c.pattern_index + c.length ≤ p.length ∧ c.text_index + c.length ≤ t.length) ∧
    (st1.matchList ≠ [] →
      ∃ st2, markStrings st1 = some st2 ∧
        st1.result.length + 1 ≤ st2.result.length ∧
        countFalse st2.pmark + s ≤ countFalse st1.pmark ∧
        countFalse st2.tmark + s ≤ countFalse st1.tmark) := by
  obtain ⟨h1, h2, _, hCand, _, _⟩ := scanPattern_spec p t st s st1 lmax hscan
  have hfacts : ∀ c ∈ st1.matchList, SpanUnmarked st1.pmark st1.tmark c ∧
      s ≤ c.length ∧
      c.pattern_index + c.length ≤ p.length ∧ c.text_index + c.length ≤ t.length := by
    intro c hc
    obtain ⟨hOK, hUnm⟩ := candProp_matchOK p t st.pmark st.tmark s s hs
      (le_refl s) c (hCand c hc)
    rw [h1, h2]
    exact ⟨hUnm, hOK.2.2.1, hOK.1, hOK.2.1⟩
  refine ⟨hfacts, ?_⟩
  intro hne
  have hsortne : st1.matchList.insertionSort (fun a b => b.length ≤ a.length) ≠ [] := by
    intro hcon
    have := (List.perm_insertionSort (fun a b : Match => b.length ≤ a.length)
      st1.matchList).length_eq
    rw [hcon] at this
    simp only [List.length_nil] at this
    exact hne (List.length_eq_zero.mp this.symm)
  cases hsort : st1.matchList.insertionSort (fun a b => b.length ≤ a.length) with
  | nil => exact absurd hsort hsortne
  | cons m0 rest =>
      have hm0 : m0 ∈ st1.matchList := by
        have : m0 ∈ st1.matchList.insertionSort (fun a b => b.length ≤ a.length) := by
          rw [hsort]
          exact List.mem_cons_self m0 rest
        exact (List.perm_insertionSort _ st1.matchList).mem_iff.mp this
      obtain ⟨hUnm0, hlen0, hbp0, hbt0⟩ := hfacts m0 hm0
      have hbounds : ∀ c ∈ st1.matchList.insertionSort (fun a b => b.length ≤ a.length),
          c.pattern_index + c.length ≤ st1.pmark.length ∧
          c.text_index + c.length ≤ st1.tmark.length := by
        intro c hc
        obtain ⟨_, _, hc3, hc4⟩ := hfacts c
          ((List.perm_insertionSort _ st1.matchList).mem_iff.mp hc)
        rw [h1, h2, hp, ht]
        exact ⟨hc3, hc4⟩
      have hsome := markGo_isSome _ st1.pmark st1.tmark st1.result hbounds
      rw [markStrings, hsort]
      rw [hsort] at hsome
      cases hmg : markGo (m0 :: rest) st1.pmark st1.tmark st1.result with
      | none => rw [hmg] at hsome; exact absurd hsome (by simp)
      | some trip =>
          obtain ⟨pm2, tm2, res2⟩ := trip
          obtain ⟨hr, hcp, hct⟩ := markGo_first_accept m0 rest st1.pmark st1.tmark
            st1.result pm2 tm2 res2 hUnm0.1 hUnm0.2 hmg
          refine ⟨⟨pm2, tm2, [], res2⟩, rfl, hr, ?_, ?_⟩
          · show countFalse pm2 + s ≤ countFalse st1.pmark
            omega
          · show countFalse tm2 + s ≤ countFalse st1.tmark
            omega

/-- C10: right after a scan that did not early-exit, every recorded
candidate has fully unmarked spans, length at least the search length and
in-bounds spans; consequently, whenever the candidate list is non-empty,
tiling succeeds, appends at least one match, and newly marks at least
`search_length` positions in each sequence. -/
theorem C10_tiling_progress (p t : List Nat) (s : Nat) (st st1 : St) (lmax : Nat)
    (hs : 1 ≤ s)
    (hp : st.pmark.length = p.length) (ht : st.tmark.length = t.length)
    (hscan : scanPattern p t st s = some (st1, lmax))
    (hnoexit : ¬ 2 * s < lmax) :
    (∀ c ∈ st1.matchList, SpanUnmarked st1.pmark st1.tmark c ∧ s ≤ c.length ∧
      c.pattern_index + c.length ≤ p.length ∧ c.text_index + c.length ≤ t.length) ∧
    (st1.matchList ≠ [] →
      ∃ st2, markStrings st1 = some st2 ∧
        st1.result.length + 1 ≤ st2.result.length ∧
        countFalse st2.pmark + s ≤ countFalse st1.pmark ∧
        countFalse st2.tmark + s ≤ countFalse st1.tmark) :=
  scan_tile_progress p t s st st1 lmax hs hp ht hscan hnoexit

theorem C10_witness :
    SpanUnmarked stC10.pmark stC10.tmark ⟨0, 3, 3⟩ ∧
    3 ≤ (⟨0, 3, 3⟩ : Match).length ∧
    (⟨0, 3, 3⟩ : Match).pattern_index + (⟨0, 3, 3⟩ : Match).length ≤ lowerBytes.length ∧
    (⟨0, 3, 3⟩ : Match).text_index + (⟨0, 3, 3⟩ : Match).length ≤ yellowBytes.length :=
  (C10_tiling_progress lowerBytes yellowBytes 3 (initSt lowerBytes yellowBytes) stC10 3
    (by decide) (by decide) (by decide) (by decide) (by decide)).1 ⟨0, 3, 3⟩ (by decide)

/-! ## Termination of the driver -/

theorem bytes_getD_lt (l : List Nat) (hb : ∀ b ∈ l, b < 256) :
    ∀ j, l.getD j 0 < BASE := by
  intro j
  have hB : BASE = 65521 := rfl
  rw [List.getD_eq_getElem?_getD]
  cases hg : l[j]? with
  | none =>
      show (0 : Nat) < BASE
      rw [hB]
      omega
  | some b =>
      have hmem : b ∈ l := List.getElem?_mem hg
      have := hb b hmem
      show b < BASE
      rw [hB]
      omega

/-- Once the scan is guaranteed an unmarked common window of the current
width (as it is right after a grow step), the driver terminates: growth
is bounded by the text length, and every non-growing pass tiles at least
one candidate, decreasing the number of unmarked text positions. -/
theorem driver_term_grow (p t : List Nat) (minL : Nat) (hminL : 1 ≤ minL)
    (hbyP : ∀ j, p.getD j 0 < BASE) (hbyT : ∀ j, t.getD j 0 < BASE)
    (u : Nat)
    (ihU : ∀ u', u' < u → ∀ s' st', 1 ≤ s' →
      st'.pmark.length = p.length → st'.tmark.length = t.length →
      countFalse st'.tmark ≤ u' →
      ∃ fuel r, driver p t minL fuel s' st' = .ok r) :
    ∀ d s st, 1 ≤ s →
      st.pmark.length = p.length → st.tmark.length = t.length →
      countFalse st.tmark ≤ u →
      t.length ≤ s + d →
      (∃ pS tS, GoodPair p t st.pmark st.tmark s pS tS) →
      ∃ fuel r, driver p t minL fuel s st = .ok r := by
  intro d
  induction d using Nat.strong_induction_on with
  | _ d ihd =>
      intro s st hs hp ht hcf hd hgpEx
      obtain ⟨pS, tS, hgp⟩ := hgpEx
      cases hsp : scanPattern p t st s with
      | none =>
          have := scanPattern_isSome p t st s hp ht hs
          rw [hsp] at this
          exact absurd this (by simp)
      | some pr =>
          obtain ⟨st1, lmax⟩ := pr
          obtain ⟨h1, h2, h3, hCand, hEarly, hNoEx⟩ :=
            scanPattern_spec p t st s st1 lmax hsp
          have hlmax : s ≤ lmax :=
            scanPattern_cover p t st s hp ht hs hbyP hbyT pS tS hgp st1 lmax hsp
          by_cases hgrow : 2 * s < lmax
          · obtain ⟨pJ, tJ, hextJ⟩ := hEarly hgrow
            have hgpJ : GoodPair p t st.pmark st.tmark lmax pJ tJ :=
              goodPair_of_extend p t st.pmark st.tmark pJ tJ lmax (by omega) hextJ
            have hd1 : 1 ≤ d := by
              by_contra hcon
              have := hgpJ.2.1
              omega
            obtain ⟨fuel, r, hok⟩ := ihd (d - 1) (by omega) lmax st1 (by omega)
              (by rw [h1]; exact hp) (by rw [h2]; exact ht)
              (by rw [h2]; exact hcf)
              (by have := hgpJ.2.1; omega)
              ⟨pJ, tJ, by rw [h1, h2]; exact hgpJ⟩
            exact ⟨fuel + 1, r, by
              rw [driver, hsp]
              simp only []
              rw [if_pos hgrow]
              exact hok⟩
          · have hne : st1.matchList ≠ [] := by
              rcases hNoEx hgrow with h0 | ⟨c, hc, _⟩
              · omega
              · intro hcon
                rw [hcon] at hc
                exact absurd hc (by simp)
            obtain ⟨hfacts, hprog⟩ :=
              scan_tile_progress p t s st st1 lmax hs hp ht hsp hgrow
            obtain ⟨st2, hmk, hres2, hcp, hct⟩ := hprog hne
            obtain ⟨hl1, hl2, _⟩ := markStrings_lengths st1 st2 hmk
            rw [h2] at hct
            have hcf2 : countFalse st2.tmark < u := by omega
            have hp2 : st2.pmark.length = p.length := by rw [hl1, h1]; exact hp
            have ht2 : st2.tmark.length = t.length := by rw [hl2, h2]; exact ht
            by_cases hh : 2 * minL < s
            · obtain ⟨fuel, r, hok⟩ := ihU (countFalse st2.tmark) hcf2 (s / 2) st2
                (by omega) hp2 ht2 (le_refl _)
              exact ⟨fuel + 1, r, by
                rw [driver, hsp]
                simp only []
                rw [if_neg hgrow, hmk]
                simp only []
                rw [if_pos hh]
                exact hok⟩
            · by_cases hh2 : minL < s
              · obtain ⟨fuel, r, hok⟩ := ihU (countFalse st2.tmark) hcf2 minL st2
                  hminL hp2 ht2 (le_refl _)
                exact ⟨fuel + 1, r, by
                  rw [driver, hsp]
                  simp only []
                  rw [if_neg hgrow, hmk]
                  simp only []
                  rw [if_neg hh, if_pos hh2]
                  exact hok⟩
              · exact ⟨0 + 1, st2.result, by
                  rw [driver, hsp]
                  simp only []
                  rw [if_neg hgrow, hmk]
                  simp only []
                  rw [if_neg hh, if_neg hh2]⟩

/-- From an arbitrary state the driver terminates, by strong induction on
the current search length: a growing pass hands over to the post-grow
argument, a tiling pass either makes progress on the unmarked count or
tiles nothing and shrinks the search length. -/
theorem driver_term_any (p t : List Nat) (minL : Nat) (hminL : 1 ≤ minL)
    (hbyP : ∀ j, p.getD j 0 < BASE) (hbyT : ∀ j, t.getD j 0 < BASE)
    (u : Nat)
    (ihU : ∀ u', u' < u → ∀ s' st', 1 ≤ s' →
      st'.pmark.length = p.length → st'.tmark.length = t.length →
      countFalse st'.tmark ≤ u' →
      ∃ fuel r, driver p t minL fuel s' st' = .ok r) :
    ∀ s st, 1 ≤ s →
      st.pmark.length = p.length → st.tmark.length = t.length →
      countFalse st.tmark ≤ u →
      ∃ fuel r, driver p t minL fuel s st = .ok r := by
  intro s
  induction s using Nat.strong_induction_on with
  | _ s ihS =>
      intro st hs hp ht hcf
      cases hsp : scanPattern p t st s with
      | none =>
          have := scanPattern_isSome p t st s hp ht hs
          rw [hsp] at this
          exact absurd this (by simp)
      | some pr =>
          obtain ⟨st1, lmax⟩ := pr
          obtain ⟨h1, h2, h3, hCand, hEarly, hNoEx⟩ :=
            scanPattern_spec p t st s st1 lmax hsp
          by_cases hgrow : 2 * s < lmax
          · obtain ⟨pJ, tJ, hextJ⟩ := hEarly hgrow
            have hgpJ : GoodPair p t st.pmark st.tmark lmax pJ tJ :=
              goodPair_of_extend p t st.pmark st.tmark pJ tJ lmax (by omega) hextJ
            obtain ⟨fuel, r, hok⟩ := driver_term_grow p t minL hminL hbyP hbyT u ihU
              t.length lmax st1 (by omega)
              (by rw [h1]; exact hp) (by rw [h2]; exact ht)
              (by rw [h2]; exact hcf)
              (by omega)
              ⟨pJ, tJ, by rw [h1, h2]; exact hgpJ⟩
            exact ⟨fuel + 1, r, by
              rw [driver, hsp]
              simp only []
              rw [if_pos hgrow]
              exact hok⟩
          · by_cases hml : st1.matchList = []
            · have hmk : markStrings st1 = some
                  { pmark := st1.pmark, tmark := st1.tmark,
                    matchList := [], result := st1.result } := by
                rw [markStrings, hml]
                rfl
              by_cases hh : 2 * minL < s
              · obtain ⟨fuel, r, hok⟩ := ihS (s / 2) (by omega)
                  { pmark := st1.pmark, tmark := st1.tmark,
                    matchList := [], result := st1.result }
                  (by omega)
                  (by show st1.pmark.length = p.length; rw [h1]; exact hp)
                  (by show st1.tmark.length = t.length; rw [h2]; exact ht)
                  (by show countFalse st1.tmark ≤ u; rw [h2]; exact hcf)
                exact ⟨fuel + 1, r, by
                  rw [driver, hsp]
                  simp only []
                  rw [if_neg hgrow, hmk]
                  simp only []
                  rw [if_pos hh]
                  exact hok⟩
              · by_cases hh2 : minL < s
                · obtain ⟨fuel, r, hok⟩ := ihS minL (by omega)
                    { pmark := st1.pmark, tmark := st1.tmark,
                      matchList := [], result := st1.result }
                    hminL
                    (by show st1.pmark.length = p.length; rw [h1]; exact hp)
                    (by show st1.tmark.length = t.length; rw [h2]; exact ht)
                    (by show countFalse st1.tmark ≤ u; rw [h2]; exact hcf)
                  exact ⟨fuel + 1, r, by
                    rw [driver, hsp]
                    simp only []
                    rw [if_neg hgrow, hmk]
                    simp only []
                    rw [if_neg hh, if_pos hh2]
                    exact hok⟩
                · exact ⟨0 + 1, st1.result, by
                    rw [driver, hsp]
                    simp only []
                    rw [if_neg hgrow, hmk]
                    simp only []
                    rw [if_neg hh, if_neg hh2]⟩
            · obtain ⟨hfacts, hprog⟩ :=
                scan_tile_progress p t s st st1 lmax hs hp ht hsp hgrow
              obtain ⟨st2, hmk, hres2, hcp, hct⟩ := hprog hml
              obtain ⟨hl1, hl2, _⟩ := markStrings_lengths st1 st2 hmk
              rw [h2] at hct
              have hcf2 : countFalse st2.tmark < u := by omega
              have hp2 : st2.pmark.length = p.length := by rw [hl1, h1]; exact hp
              have ht2 : st2.tmark.length = t.length := by rw [hl2, h2]; exact ht
              by_cases hh : 2 * minL < s
              · obtain ⟨fuel, r, hok⟩ := ihU (countFalse st2.tmark) hcf2 (s / 2) st2
                  (by omega) hp2 ht2 (le_refl _)
                exact ⟨fuel + 1, r, by
                  rw [driver, hsp]
                  simp only []
                  rw [if_neg hgrow, hmk]
                  simp only []
                  rw [if_pos hh]
                  exact hok⟩
              · by_cases hh2 : minL < s
                · obtain ⟨fuel, r, hok⟩ := ihU (countFalse st2.tmark) hcf2 minL st2
                    hminL hp2 ht2 (le_refl _)
                  exact ⟨fuel + 1, r, by
                    rw [driver, hsp]
                    simp only []
                    rw [if_neg hgrow, hmk]
                    simp only []
                    rw [if_neg hh, if_pos hh2]
                    exact hok⟩
                · exact ⟨0 + 1, st2.result, by
                    rw [driver, hsp]
                    simp only []
                    rw [if_neg hgrow, hmk]
                    simp only []
                    rw [if_neg hh, if_neg hh2]⟩

/-- The driver terminates from any well-formed state, by strong induction
on the number of unmarked text positions. -/
theorem driver_terminates (p t : List Nat) (minL : Nat) (hminL : 1 ≤ minL)
    (hbyP : ∀ j, p.getD j 0 < BASE) (hbyT : ∀ j, t.getD j 0 < BASE) :
    ∀ u s st, 1 ≤ s →
      st.pmark.length = p.length → st.tmark.length = t.length →
      countFalse st.tmark ≤ u →
      ∃ fuel r, driver p t minL fuel s st = .ok r := by
  intro u
  induction u using Nat.strong_induction_on with
  | _ u ihU =>
      intro s st hs hp ht hcf
      exact driver_term_any p t minL hminL hbyP hbyT u
        (fun u' hu' s' st' hs' hp' ht' hcf' => ihU u' hu' s' st' hs' hp' ht' hcf')
        s st hs hp ht hcf

/-- C4: for every pattern and text (sequences of bytes, i.e. values below
256) and positive `initial_search_length` and `minimum_match_length`,
`run` terminates: some finite fuel makes the driver loop reach its normal
`return`, so it performs only finitely many iterations. -/
theorem C4_run_terminates (p t : List Nat) (s0 minL : Nat)
    (hs0 : 1 ≤ s0) (hminL : 1 ≤ minL)
    (hbp : ∀ b ∈ p, b < 256) (hbt : ∀ b ∈ t, b < 256) :
    ∃ fuel r, driver p t minL fuel s0 (initSt p t) = .ok r :=
  driver_terminates p t minL hminL (bytes_getD_lt p hbp) (bytes_getD_lt t hbt)
    (countFalse (initSt p t).tmark) s0 (initSt p t) hs0
    (List.length_replicate _ _) (List.length_replicate _ _) (le_refl _)

theorem C4_witness :
    ∃ fuel r, driver lowerBytes yellowBytes 2 fuel 3
      (initSt lowerBytes yellowBytes) = .ok r :=
  C4_run_terminates lowerBytes yellowBytes 3 2 (by decide) (by decide)
    (by decide) (by decide)

end RkrGst
